import Mathlib

/-! Verification development for pyFIR (src/pyFIR.py): streaming FIR filtering
by overlap-add (OLA), overlap-save (OLS) and uniformly partitioned
overlap-save (UPOLS), as implemented by the class FIRfilter.

Modelling conventions.

* Signals are lists of rationals; the floating-point pipeline is modelled in
  exact arithmetic (the spec states its numerical properties up to
  floating-point tolerance).  The model is single-channel: impulse responses
  and audio blocks are one-dimensional.
* The frequency-domain pipeline ifft(fft(x, n) * fft(h, n)).real is modelled
  denotationally by its exact mathematical value, the length-n circular
  convolution of the zero-padded (or truncated) operands; see cconv.  Stored
  spectra - the field H, the rows of the UPOLS filter matrix, and the rows of
  the frequency delay line - are represented by the time-domain vectors whose
  transforms the source stores, which determine them exactly.
* The floating-point cost model inside optimize_UPOLS_parameters is kept
  abstract as a parameter cost : Nat -> Nat -> Rat; the search structure
  (candidate list, K ranges, running-minimum update) is modelled exactly.
* process returning none models a raised Python exception; an output
  component of some none models a returned block with no finite samples
  (numpy division of a block by a zero reference yields inf or nan in every
  sample instead of raising).
-/

namespace PyFIR

/-- Read sample i of a signal; out-of-range samples read as 0 (this matches
numpy zero padding wherever the source pads, and lets one list stand for the
zero-extended signal). -/
def getd (x : List ℚ) (i : Nat) : ℚ := x.getD i 0

/-- generate_ref for one channel: np.max(np.sum(abs(h), axis=0)) is the sum of
absolute impulse-response coefficients. -/
def refOf (h : List ℚ) : ℚ := (h.map (fun v => |v|)).sum

/-- normalize_output from the source: divide the block by the reference. -/
def normalize_output (ref : ℚ) (data : List ℚ) : List ℚ := data.map (fun v => v / ref)

/-- Sample j of ifft(fft(x, n) * fft(h, n)).real: the exact value of the
length-n circular convolution, written with the filter index outermost. -/
def cconvEntry (n : Nat) (x h : List ℚ) (j : Nat) : ℚ :=
  ((List.range n).map (fun k => getd h k * getd x ((j + n - k) % n))).sum

/-- The whole length-n block ifft(fft(x, n) * fft(h, n)).real. -/
def cconv (n : Nat) (x h : List ℚ) : List ℚ := (List.range n).map (cconvEntry n x h)

/-- Sample j of the direct (time-domain) linear convolution; the reference
semantics the spec compares the engine against. -/
def lconvEntry (x h : List ℚ) (j : Nat) : ℚ :=
  ((List.range (j + 1)).map (fun k => getd h k * getd x (j - k))).sum

/-- First len samples of the direct linear convolution of x with h. -/
def lconv (x h : List ℚ) (len : Nat) : List ℚ := (List.range len).map (lconvEntry x h)

/-- np.roll(a, -k) for 0 <= k <= a.length (the only way the source uses it). -/
def rollNeg (a : List ℚ) (k : Nat) : List ℚ := a.drop k ++ a.take k

/-- np.roll(rows, 1, axis=0): the last row wraps around to the front. -/
def rollPos1 (rows : List (List ℚ)) : List (List ℚ) :=
  rows.drop (rows.length - 1) ++ rows.take (rows.length - 1)

/-- The slice assignment a[-k:] = 0 (length preserving). -/
def zeroLast (a : List ℚ) (k : Nat) : List ℚ :=
  a.take (a.length - k) ++ List.replicate (a.length - (a.length - k)) 0

/-- The slice assignment a[-k:] = x for a block x of length k. -/
def setLastB (a : List ℚ) (k : Nat) (x : List ℚ) : List ℚ := a.take (a.length - k) ++ x

/-- Zero padding (or truncation) to length n performed by fft(v, n). -/
def fftPad (n : Nat) (a : List ℚ) : List ℚ := a.take n ++ List.replicate (n - a.length) 0

/-- pad_the_end from the source (unchanged when x is already long enough). -/
def pad_the_end (x : List ℚ) (new_length : Nat) : List ℚ :=
  if x.length < new_length then x ++ List.replicate (new_length - x.length) 0 else x

/-- pad_beginning from the source. -/
def pad_beginning (x : List ℚ) (padding : Nat) : List ℚ := List.replicate padding 0 ++ x

/-- Candidate partition lengths of optimize_UPOLS_parameters:
2^k for k in range(0, int(np.log2(N))). -/
def candidateLs (N : Nat) : List Nat := (List.range (Nat.log2 N)).map (fun k => 2 ^ k)

/-- The inclusive transform-size scan [k_sort[0] .. k_sort[1]] for one candidate
partition length L: K_min = B + L + d_max - 1 with d_max = B - gcd(L, B),
K_max = 2^ceil(log2 K_min), the two sorted, and the upper bound bumped by one
when they coincide. -/
def Krange (B L : Nat) : List Nat :=
  let d_max := B - Nat.gcd L B
  let K_min := B + L + d_max - 1
  let K_max := 2 ^ Nat.clog 2 K_min
  let s0 := min K_min K_max
  let s1 := max K_min K_max
  let s1' := if s0 = s1 then s1 + 1 else s1
  List.range' s0 (s1' + 1 - s0)

/-- One running-minimum update of the brute-force search.  The accumulator none
models c_opt = Inf with L_opt, K_opt still unassigned; a finite cost always
beats Inf. -/
def optStep (cost : Nat → Nat → ℚ) (L K : Nat) (acc : Option (ℚ × Nat × Nat)) :
    Option (ℚ × Nat × Nat) :=
  match acc with
  | none => some (cost L K, L, K)
  | some (copt, Lo, Ko) =>
    if cost L K < copt then some (cost L K, L, K) else some (copt, Lo, Ko)

/-- optimize_UPOLS_parameters(N, B).  Returns none when the loop body never ran,
in which case the source raises UnboundLocalError at return L_opt, K_opt. -/
def optimize_UPOLS_parameters (cost : Nat → Nat → ℚ) (N B : Nat) : Option (Nat × Nat) :=
  ((candidateLs N).foldl
      (fun acc L => (Krange B L).foldl (fun a K => optStep cost L K a) acc) none).map
    (fun p => (p.2.1, p.2.2))

inductive FIRMethod where
  | ols
  | ola
  | upols
  deriving DecidableEq, Inhabited

/-- The mutable attributes of one FIRfilter instance.  Fields that the source
creates lazily hold inert defaults ([], 0) until the corresponding setup code
runs.  H is the time-domain snapshot whose length-NFFT transform the source
caches; Hrows and FDL likewise hold the time-domain vectors behind the UPOLS
filter matrix and frequency delay line. -/
structure FIRState where
  method : FIRMethod
  B : Nat
  NFFT : Option Nat
  flagIRchanged : Bool
  stored_h : Option (List ℚ)
  ref : ℚ
  left_overs : List ℚ
  len_y_left : Nat
  partition : Option Nat
  normalize : Bool
  H : List ℚ
  OLS_input_buffer : List ℚ
  P : Nat
  nm : List Nat
  Hrows : List (List ℚ)
  input_buffer : List ℚ
  FDL : List (List ℚ)
  deriving DecidableEq, Inhabited

/-- FIRfilter.__init__.  The upols branch with no caller partition and a given
impulse response runs the optimizer at construction time; an optimizer failure
(empty candidate list) propagates as a construction failure. -/
def FIRfilter_init (cost : Nat → Nat → ℚ) (method : FIRMethod) (B : Nat)
    (h : Option (List ℚ)) (partition : Option Nat) (normalize : Bool) : Option FIRState :=
  let base : FIRState :=
    { method := method, B := B, NFFT := none, flagIRchanged := true, stored_h := h,
      ref := match h with | some hh => refOf hh | none => 0,
      left_overs := List.replicate B 0, len_y_left := 0,
      partition := partition, normalize := normalize, H := [], OLS_input_buffer := [],
      P := 0, nm := [], Hrows := [], input_buffer := [], FDL := [] }
  match method, partition, h with
  | .upols, none, some hh =>
    (optimize_UPOLS_parameters cost hh.length B).map
      (fun p => { base with partition := some p.1, NFFT := some p.2 })
  | _, _, _ => some base

/-- fft_conv: transform the window, recompute and cache the filter transform
exactly when the impulse-response-changed flag is set (then clear the flag),
multiply and inverse-transform.  fft(stored_h, NFFT) truncates or zero-pads
stored_h to NFFT; cconv reads exactly the first NFFT samples of H, which gives
the same semantics. -/
def fft_conv (s : FIRState) (x : List ℚ) : Option (List ℚ × FIRState) :=
  match s.NFFT, s.stored_h with
  | some n, some h =>
    if s.flagIRchanged then
      some (cconv n x h, { s with H := h, flagIRchanged := false })
    else
      some (cconv n x s.H, s)
  | _, _ => none

/-- Final normalization step shared by the three methods.  A zero reference
makes every quotient of the numpy division inf or nan, i.e. no finite output
block exists: modelled as some none. -/
def finishOut (s : FIRState) (out : List ℚ) : Option (List ℚ) :=
  if s.normalize then
    (if s.ref = 0 then none else some (normalize_output s.ref out))
  else some out

/-- FIRfilter.OLA.  Lazy init when NFFT is unset: NFFT = B + Nh - 1, the
left_overs carry buffer becomes NFFT zeros, len_y_left = NFFT - B.  Then
y = fft_conv(x), output = y[:B] + left_overs[:B], and the carry buffer is
rolled left by B, its last B samples zeroed, and y[B:] added into its first
len_y_left positions. -/
def OLA_body (s1 : FIRState) (x : List ℚ) : Option (Option (List ℚ) × FIRState) :=
  match fft_conv s1 x with
  | none => none
  | some (y, s2) =>
    let out := (List.range s2.B).map (fun i => getd y i + getd s2.left_overs i)
    let lo0 := zeroLast (rollNeg s2.left_overs s2.B) s2.B
    let lo := (List.range lo0.length).map
      (fun i => if i < s2.len_y_left then getd lo0 i + getd y (s2.B + i) else getd lo0 i)
    let s3 := { s2 with left_overs := lo }
    some (finishOut s3 out, s3)

def OLA_step (s : FIRState) (x : List ℚ) : Option (Option (List ℚ) × FIRState) :=
  match s.stored_h with
  | none => none
  | some h =>
    let s1 := match s.NFFT with
      | none =>
        let n := s.B + h.length - 1
        { s with NFFT := some n, left_overs := List.replicate n 0, len_y_left := n - s.B }
      | some _ => s
    OLA_body s1 x

/-- FIRfilter.OLS.  Lazy init when NFFT is unset: NFFT = B + Nh - 1 and a zero
input ring buffer of length NFFT.  Then the ring buffer is rolled left by B,
the new block written into its last B slots, and the last B samples of
fft_conv(buffer) are emitted. -/
def OLS_body (s1 : FIRState) (x : List ℚ) : Option (Option (List ℚ) × FIRState) :=
  let buf := setLastB (rollNeg s1.OLS_input_buffer s1.B) s1.B x
  let s2 := { s1 with OLS_input_buffer := buf }
  match fft_conv s2 buf with
  | none => none
  | some (outFull, s3) =>
    some (finishOut s3 (outFull.drop (outFull.length - s3.B)), s3)

def OLS_step (s : FIRState) (x : List ℚ) : Option (Option (List ℚ) × FIRState) :=
  match s.stored_h with
  | none => none
  | some h =>
    let s1 := match s.NFFT with
      | none =>
        let n := s.B + h.length - 1
        { s with NFFT := some n, OLS_input_buffer := List.replicate n 0 }
      | some _ => s
    OLS_body s1 x

/-- Row m of the UPOLS filter matrix, by the time-domain vector whose transform
the source stores: the m-th length-L slice of h (a final partial slice stays
short and is completed by the fft zero padding), front-padded by the remainder
delay (m*L) mod B zeros via pad_beginning, then padded or truncated to NFFT by
fft(h_pad, NFFT). -/
def mkHrow (n B L : Nat) (h : List ℚ) (m : Nat) : List ℚ :=
  fftPad n (pad_beginning ((h.drop (m * L)).take L) ((m * L) % B))

/-- The UPOLS setup block (run whenever flagIRchanged is set): resolve the
partition length and NFFT (optimizer when no partition is stored, otherwise
NFFT = B + L + d_max with d_max = B - gcd(L, B)), P = ceil(Nh / L), the active
slots nm[m] = floor(m*L / B), the partitioned filter rows, a zero input buffer
and a zero FDL with max(nm) + 1 rows; finally the flag is cleared.  A zero
partition length raises ZeroDivisionError; an empty impulse response makes
np.max of the empty nm raise. -/
def UPOLS_setup (cost : Nat → Nat → ℚ) (s : FIRState) (h : List ℚ) : Option FIRState :=
  let Nh := h.length
  match (match s.partition with
         | none => optimize_UPOLS_parameters cost Nh s.B
         | some L => some (L, s.B + L + (s.B - Nat.gcd L s.B))) with
  | none => none
  | some (L_partit, n) =>
    if L_partit = 0 then none
    else
      let P := (Nh + L_partit - 1) / L_partit
      if P = 0 then none
      else
        let nmv := (List.range P).map (fun m => (m * L_partit) / s.B)
        some { s with
                partition := some L_partit,
                NFFT := some n,
                P := P,
                nm := nmv,
                Hrows := (List.range P).map (mkHrow n s.B L_partit h),
                input_buffer := List.replicate n 0,
                FDL := List.replicate (nmv.foldr max 0 + 1) (List.replicate n (0 : ℚ)),
                flagIRchanged := false }

/-- FIRfilter.UPOLS: run the setup when the flag is set, then slide the input
ring buffer by B, rotate the FDL by one row and store the transform of the
fresh window in row 0, and emit the last B samples of
ifft(sum over m of FDL[nm[m]] * H[m]).real, which is the sum over m of the
circular convolutions of the delayed windows with the partition filters. -/
def UPOLS_stream (s1 : FIRState) (x : List ℚ) : Option (List ℚ) × FIRState :=
  let n := s1.NFFT.getD 0
  let buf := setLastB (rollNeg s1.input_buffer s1.B) s1.B x
  let FDL2 := buf :: (rollPos1 s1.FDL).tail
  let out := (List.range n).map (fun j =>
    ((List.range s1.P).map (fun m =>
      cconvEntry n (FDL2.getD (s1.nm.getD m 0) []) (s1.Hrows.getD m []) j)).sum)
  let s2 := { s1 with input_buffer := buf, FDL := FDL2 }
  (finishOut s2 (out.drop (out.length - s2.B)), s2)

def UPOLS_step (cost : Nat → Nat → ℚ) (s : FIRState) (x : List ℚ) :
    Option (Option (List ℚ) × FIRState) :=
  match s.stored_h with
  | none => none
  | some h =>
    match (if s.flagIRchanged then UPOLS_setup cost s h else some s) with
    | none => none
    | some s1 => some (UPOLS_stream s1 x)

/-- FIRfilter.process: when a new impulse response is supplied and differs by
value from the stored one (np.any(h != stored_h), which is also true when the
lengths differ), set the changed flag, store it and regenerate the reference;
then dispatch on the configured method. -/
def process (cost : Nat → Nat → ℚ) (s : FIRState) (x : List ℚ) (hIn : Option (List ℚ)) :
    Option (Option (List ℚ) × FIRState) :=
  let s1 := match hIn with
    | some hnew =>
      if s.stored_h ≠ some hnew then
        { s with flagIRchanged := true, stored_h := some hnew, ref := refOf hnew }
      else s
    | none => s
  match s1.method with
  | .ols => OLS_step s1 x
  | .ola => OLA_step s1 x
  | .upols => UPOLS_step cost s1 x

/-- Feed a stream of blocks (with no new impulse response) through process,
collecting the outputs; a raised exception ends the stream. -/
def runProcess (cost : Nat → Nat → ℚ) :
    FIRState → List (List ℚ) → List (Option (List ℚ)) × Option FIRState
  | s, [] => ([], some s)
  | s, x :: rest =>
    match process cost s x none with
    | none => ([], none)
    | some (y, s') =>
      let r := runProcess cost s' rest
      (y :: r.1, r.2)

/-- A cost oracle for concrete instantiations (any fixed oracle selects the
first candidate pair, which is all the closed tests need). -/
def cost0 : Nat → Nat → ℚ := fun _ _ => 0

/-- The scenario impulse response of the spec: N = 8, a leading and a trailing
unit tap. -/
def hC1 : List ℚ := [1, 0, 0, 0, 0, 0, 0, 1]

/-- The scenario input stream, split into two length-4 blocks. -/
def xsC1 : List (List ℚ) := [[1, 2, 3, 4], [5, 6, 7, 8]]

/-- Output blocks of a freshly constructed engine fed a stream of blocks. -/
def outBlocks (e : Option FIRState) (xs : List (List ℚ)) : List (Option (List ℚ)) :=
  match e with
  | some s => (runProcess cost0 s xs).1
  | none => []

/-- Post-state (second component) of one process call on an optional state. -/
def processSt (cost : Nat → Nat → ℚ) (e : Option FIRState) (x : List ℚ)
    (hIn : Option (List ℚ)) : Option FIRState :=
  match e with
  | some s => (process cost s x hIn).map Prod.snd
  | none => none

/-- Any pair held by the running minimum came from the candidate scans. -/
def GoodAcc (N B : Nat) (acc : Option (ℚ × Nat × Nat)) : Prop :=
  ∀ c L K, acc = some (c, L, K) → L ∈ candidateLs N ∧ K ∈ Krange B L

/-- A ready (post-first-call) OLS engine state over the scenario filter, used
to instantiate general theorems. -/
def olsReadyW : FIRState :=
  { method := .ols, B := 4, NFFT := some 11, flagIRchanged := false, stored_h := some hC1,
    ref := 2, left_overs := List.replicate 4 0, len_y_left := 0, partition := none,
    normalize := false, H := hC1, OLS_input_buffer := List.replicate 11 0,
    P := 0, nm := [], Hrows := [], input_buffer := [], FDL := [] }

/-- A fresh OLA engine state over the scenario filter (as built by
FIRfilter_init), used to instantiate general theorems. -/
def olaFreshW : FIRState :=
  { method := .ola, B := 4, NFFT := none, flagIRchanged := true, stored_h := some hC1,
    ref := 2, left_overs := List.replicate 4 0, len_y_left := 0, partition := none,
    normalize := false, H := [], OLS_input_buffer := [],
    P := 0, nm := [], Hrows := [], input_buffer := [], FDL := [] }

/-- A ready OLS engine whose stored impulse response is identically zero and
whose normalization reference is therefore zero. -/
def zeroRefW : FIRState :=
  { method := .ols, B := 2, NFFT := some 3, flagIRchanged := false,
    stored_h := some (List.replicate 2 0), ref := 0, left_overs := List.replicate 2 0,
    len_y_left := 0, partition := none, normalize := true, H := List.replicate 2 0,
    OLS_input_buffer := List.replicate 3 0, P := 0, nm := [], Hrows := [],
    input_buffer := [], FDL := [] }

/-- The value of the impulse-response-changed flag right after the comparison
at the top of process (before the method body runs). -/
def flagAfter (s : FIRState) (hIn : Option (List ℚ)) : Bool :=
  match hIn with
  | none => s.flagIRchanged
  | some hnew => if s.stored_h ≠ some hnew then true else s.flagIRchanged

/-- The stored impulse response right after the comparison at the top of
process. -/
def storedAfter (s : FIRState) (hIn : Option (List ℚ)) : Option (List ℚ) :=
  match hIn with
  | none => s.stored_h
  | some hnew => some hnew

/-- Lengths of every ring and delay buffer the selected method owns, in the
sample dimension. -/
def buffersLenOk (s : FIRState) (n : Nat) : Prop :=
  match s.method with
  | .ola => s.left_overs.length = n
  | .ols => s.OLS_input_buffer.length = n
  | .upols => s.input_buffer.length = n ∧ s.FDL ≠ [] ∧ ∀ r ∈ s.FDL, r.length = n

/-- One process call advances every buffer of the selected method by exactly
one block: the input rings discard their oldest B samples and append the new
block, the OLA carry buffer shifts down by B (tail samples moving B positions
closer to the output, zeros entering at the end), and the FDL moves every row
down one slot (one block of delay), dropping the last row and storing the
fresh window in row 0. -/
def shiftedByB (s s' : FIRState) (n : Nat) (x : List ℚ) : Prop :=
  match s.method with
  | .ols => s'.OLS_input_buffer = s.OLS_input_buffer.drop s.B ++ x
  | .ola => ∀ i, i < n →
      getd s'.left_overs i =
        (if i < n - s.B then getd s.left_overs (s.B + i) + getd (cconv n x s.H) (s.B + i)
         else 0)
  | .upols => s'.input_buffer = s.input_buffer.drop s.B ++ x ∧
      s'.FDL = s'.input_buffer :: s.FDL.dropLast ∧ s'.FDL.length = s.FDL.length

/-- All samples of a signal (default-zero extended) lie in [-1, 1]. -/
def EntB (v : List ℚ) : Prop := ∀ i, |getd v i| ≤ 1

/-- Sum of the absolute filter taps from index a on. -/
def Stail (h : List ℚ) (a : Nat) : ℚ := ∑ k in Finset.Ico a h.length, |getd h k|

/-- OLS part of the run invariant: before the lazy setup, or in a steady
state whose cached transform matches the stored filter and whose ring buffer
holds unit-bounded samples. -/
def C2InvOls (h : List ℚ) (B : Nat) (s : FIRState) : Prop :=
  (s.NFFT = none ∧ s.flagIRchanged = true) ∨
  (s.NFFT = some (B + h.length - 1) ∧ s.flagIRchanged = false ∧ s.H = h ∧
    s.OLS_input_buffer.length = B + h.length - 1 ∧ EntB s.OLS_input_buffer)

/-- OLA part of the run invariant: the carry buffer samples are bounded by the
tail sums of the filter. -/
def C2InvOla (h : List ℚ) (B : Nat) (s : FIRState) : Prop :=
  (s.NFFT = none ∧ s.flagIRchanged = true) ∨
  (s.NFFT = some (B + h.length - 1) ∧ s.flagIRchanged = false ∧ s.H = h ∧
    s.len_y_left = B + h.length - 1 - B ∧
    s.left_overs.length = B + h.length - 1 ∧
    ∀ j, |getd s.left_overs j| ≤ Stail h (j + 1))

/-- UPOLS part of the run invariant: a partition length is stored, and after
setup the partitioned filter matrix is the canonical transform of the stored
filter while the input ring and delay line hold unit-bounded samples. -/
def C2InvUp (h : List ℚ) (B : Nat) (s : FIRState) : Prop :=
  ∃ L, s.partition = some L ∧
    (s.flagIRchanged = true ∨
      (s.flagIRchanged = false ∧ 0 < L ∧
        s.Hrows = (List.range s.P).map (mkHrow (s.NFFT.getD 0) B L h) ∧
        EntB s.input_buffer ∧ ∀ r ∈ s.FDL, EntB r))

/-- Run invariant of the normalization-bound claim, for a fixed stored impulse
response h and block size B. -/
def C2Inv (h : List ℚ) (B : Nat) (s : FIRState) : Prop :=
  s.stored_h = some h ∧ s.ref = refOf h ∧ s.normalize = true ∧ s.B = B ∧
  (s.method = .ols → C2InvOls h B s) ∧
  (s.method = .ola → C2InvOla h B s) ∧
  (s.method = .upols → C2InvUp h B s)

/-- Fresh OLS engine with normalization on, over the scenario filter, exactly
as FIRfilter_init builds it. -/
def olsFreshNormW : FIRState :=
  { method := .ols, B := 4, NFFT := none, flagIRchanged := true, stored_h := some hC1,
    ref := refOf hC1, left_overs := List.replicate 4 0, len_y_left := 0, partition := none,
    normalize := true, H := [], OLS_input_buffer := [],
    P := 0, nm := [], Hrows := [], input_buffer := [], FDL := [] }

end PyFIR

namespace PyFIR

/- ------------------------------------------------------------------ -/
/- Claim theorems.                                                     -/
/- ------------------------------------------------------------------ -/

/- Unfolding lemmas for process. -/

lemma process_none (cost : Nat → Nat → ℚ) (s : FIRState) (x : List ℚ) :
    process cost s x none =
      (match s.method with
       | .ols => OLS_step s x
       | .ola => OLA_step s x
       | .upols => UPOLS_step cost s x) := rfl

lemma process_changed (cost : Nat → Nat → ℚ) (s : FIRState) (x : List ℚ) (h2 : List ℚ)
    (hc : s.stored_h ≠ some h2) :
    process cost s x (some h2) =
      (match s.method with
       | .ols => OLS_step { s with flagIRchanged := true, stored_h := some h2, ref := refOf h2 } x
       | .ola => OLA_step { s with flagIRchanged := true, stored_h := some h2, ref := refOf h2 } x
       | .upols => UPOLS_step cost { s with flagIRchanged := true, stored_h := some h2, ref := refOf h2 } x) := by
  simp only [process, if_pos hc]

lemma process_same (cost : Nat → Nat → ℚ) (s : FIRState) (x : List ℚ) (h2 : List ℚ)
    (hc : s.stored_h = some h2) :
    process cost s x (some h2) =
      (match s.method with
       | .ols => OLS_step s x
       | .ola => OLA_step s x
       | .upols => UPOLS_step cost s x) := by
  simp [process, hc]

lemma length_rollNeg (a : List ℚ) (k : Nat) : (rollNeg a k).length = a.length := by
  simp only [rollNeg, List.length_append, List.length_drop, List.length_take]
  omega

lemma length_zeroLast (a : List ℚ) (k : Nat) : (zeroLast a k).length = a.length := by
  simp only [zeroLast, List.length_append, List.length_take, List.length_replicate]
  omega

/-- Claim C1: with the impulse response [1,0,0,0,0,0,0,1], block size 4 and the
input blocks [1,2,3,4] then [5,6,7,8], the OLS, OLA and UPOLS variants of
process all emit the same two 4-sample blocks, whose concatenation is the
first 8 samples of the direct linear convolution of [1,...,8] with the
impulse response. -/
theorem C1_scenario_equivalence :
    outBlocks (FIRfilter_init cost0 .ols 4 (some hC1) none false) xsC1
        = [some [1, 2, 3, 4], some [5, 6, 7, 9]] ∧
    outBlocks (FIRfilter_init cost0 .ola 4 (some hC1) none false) xsC1
        = [some [1, 2, 3, 4], some [5, 6, 7, 9]] ∧
    outBlocks (FIRfilter_init cost0 .upols 4 (some hC1) (some 4) false) xsC1
        = [some [1, 2, 3, 4], some [5, 6, 7, 9]] ∧
    [1, 2, 3, 4] ++ [5, 6, 7, 9] = lconv [1, 2, 3, 4, 5, 6, 7, 8] hC1 8 := by
  refine ⟨?_, ?_, ?_, ?_⟩ <;> with_unfolding_all decide

/- Search-structure lemmas for the optimizer claims. -/

lemma optStep_isSome (cost : Nat → Nat → ℚ) (L K : Nat) (acc : Option (ℚ × Nat × Nat)) :
    (optStep cost L K acc).isSome := by
  rcases acc with _ | ⟨c, Lo, Ko⟩
  · simp [optStep]
  · simp only [optStep]
    split <;> simp

lemma foldK_isSome (cost : Nat → Nat → ℚ) (L : Nat) (ks : List Nat)
    (acc : Option (ℚ × Nat × Nat)) (h : acc.isSome) :
    (ks.foldl (fun a K => optStep cost L K a) acc).isSome := by
  induction ks generalizing acc with
  | nil => simpa using h
  | cons K ks ih => exact ih _ (optStep_isSome cost L K acc)

lemma foldK_isSome_of_ne_nil (cost : Nat → Nat → ℚ) (L : Nat) (ks : List Nat)
    (h : ks ≠ []) (acc : Option (ℚ × Nat × Nat)) :
    (ks.foldl (fun a K => optStep cost L K a) acc).isSome := by
  cases ks with
  | nil => exact absurd rfl h
  | cons K ks => exact foldK_isSome cost L ks _ (optStep_isSome cost L K acc)

lemma Krange_ne_nil (B L : Nat) : Krange B L ≠ [] := by
  have ht : B + L + (B - Nat.gcd L B) - 1
      ≤ 2 ^ Nat.clog 2 (B + L + (B - Nat.gcd L B) - 1) :=
    Nat.le_pow_clog one_lt_two _
  simp only [Krange, ne_eq, List.range'_eq_nil]
  split <;> omega

lemma goodAcc_foldK (cost : Nat → Nat → ℚ) {N B L : Nat} (hL : L ∈ candidateLs N)
    (ks : List Nat) (hks : ∀ K ∈ ks, K ∈ Krange B L)
    (acc : Option (ℚ × Nat × Nat)) (hacc : GoodAcc N B acc) :
    GoodAcc N B (ks.foldl (fun a K => optStep cost L K a) acc) := by
  induction ks generalizing acc with
  | nil => exact hacc
  | cons K ks ih =>
    refine ih (fun K' hK' => hks K' (List.mem_cons_of_mem _ hK')) _ ?_
    intro c L' K' hEq
    rcases acc with _ | ⟨⟨c0, L0, K0⟩⟩
    · simp only [optStep, Option.some.injEq, Prod.mk.injEq] at hEq
      obtain ⟨-, h2, h3⟩ := hEq
      subst h2; subst h3
      exact ⟨hL, hks K (List.mem_cons_self _ _)⟩
    · simp only [optStep] at hEq
      split at hEq <;>
        simp only [Option.some.injEq, Prod.mk.injEq] at hEq
      · obtain ⟨-, h2, h3⟩ := hEq
        subst h2; subst h3
        exact ⟨hL, hks K (List.mem_cons_self _ _)⟩
      · obtain ⟨-, h2, h3⟩ := hEq
        subst h2; subst h3
        exact hacc c0 L0 K0 rfl

lemma goodAcc_foldL (cost : Nat → Nat → ℚ) {N B : Nat} (ls : List Nat)
    (hls : ∀ L ∈ ls, L ∈ candidateLs N)
    (acc : Option (ℚ × Nat × Nat)) (hacc : GoodAcc N B acc) :
    GoodAcc N B (ls.foldl
      (fun acc L => (Krange B L).foldl (fun a K => optStep cost L K a) acc) acc) := by
  induction ls generalizing acc with
  | nil => exact hacc
  | cons L ls ih =>
    refine ih (fun L' hL' => hls L' (List.mem_cons_of_mem _ hL')) _ ?_
    exact goodAcc_foldK cost (hls L (List.mem_cons_self _ _)) _ (fun K hK => hK) acc hacc

/-- Claim C5: for N at least 2 and positive B, the optimizer returns a pair
(L, K) with L a power of two drawn from the candidate list (hence L at most N)
and K at least B + L - 1. -/
theorem C5_optimizer_validity (cost : Nat → Nat → ℚ) (N B : Nat)
    (hN : 2 ≤ N) (hB : 1 ≤ B) :
    ∃ L K, optimize_UPOLS_parameters cost N B = some (L, K) ∧
      L ∈ candidateLs N ∧ (∃ k, L = 2 ^ k) ∧ L ≤ N ∧ B + L - 1 ≤ K := by
  have hN0 : N ≠ 0 := by omega
  have hlog : 1 ≤ Nat.log2 N := (Nat.le_log2 hN0).mpr (by omega)
  have hne : candidateLs N ≠ [] := by
    simp only [candidateLs, ne_eq, List.map_eq_nil_iff, List.range_eq_nil]
    omega
  have hfoldL : ∀ (ls : List Nat) (acc : Option (ℚ × Nat × Nat)), acc.isSome →
      (ls.foldl
        (fun acc L => (Krange B L).foldl (fun a K => optStep cost L K a) acc) acc).isSome := by
    intro ls
    induction ls with
    | nil => intro acc h; simpa using h
    | cons L ls ih =>
      intro acc h
      exact ih _ (foldK_isSome cost L _ acc h)
  have hsome :
      ((candidateLs N).foldl
        (fun acc L => (Krange B L).foldl (fun a K => optStep cost L K a) acc) none).isSome := by
    cases hcand : candidateLs N with
    | nil => exact absurd hcand hne
    | cons L ls =>
      rw [List.foldl_cons]
      exact hfoldL ls _ (foldK_isSome_of_ne_nil cost L _ (Krange_ne_nil B L) none)
  obtain ⟨⟨c, L, K⟩, hp⟩ := Option.isSome_iff_exists.mp hsome
  have hgood := goodAcc_foldL cost (candidateLs N) (fun L h => h) none
    (fun c L K h => by cases h) c L K hp
  obtain ⟨hLmem, hKmem⟩ := hgood
  refine ⟨L, K, ?_, hLmem, ?_, ?_, ?_⟩
  · simp [optimize_UPOLS_parameters, hp]
  · obtain ⟨k, -, hk⟩ := List.mem_map.mp hLmem
    exact ⟨k, hk.symm⟩
  · obtain ⟨k, hkmem, hk⟩ := List.mem_map.mp hLmem
    have hklt : k < Nat.log2 N := List.mem_range.mp hkmem
    calc L = 2 ^ k := hk.symm
      _ ≤ 2 ^ Nat.log2 N := Nat.pow_le_pow_right (by omega) (by omega)
      _ ≤ N := (Nat.le_log2 hN0).mp le_rfl
  · have ht : B + L + (B - Nat.gcd L B) - 1
        ≤ 2 ^ Nat.clog 2 (B + L + (B - Nat.gcd L B) - 1) :=
      Nat.le_pow_clog one_lt_two _
    have hmem := hKmem
    simp only [Krange, List.mem_range'_1] at hmem
    omega

/-- Claim C5 witness at a concrete instance. -/
theorem C5_optimizer_validity_witness :
    ∃ L K, optimize_UPOLS_parameters cost0 8 4 = some (L, K) ∧
      L ∈ candidateLs 8 ∧ (∃ k, L = 2 ^ k) ∧ L ≤ 8 ∧ 4 + L - 1 ≤ K :=
  C5_optimizer_validity cost0 8 4 (by norm_num) (by norm_num)

/-- Claim C9: with an impulse response of length 1 the candidate list
2^k for k in range(int(log2(1))) is empty, the optimizer loop body never runs,
and the source raises UnboundLocalError at the return; consequently building a
UPOLS engine with a length-1 impulse response and no caller partition fails,
for every block size. -/
theorem C9_optimizer_unbound_length_one (cost : Nat → Nat → ℚ) (B : Nat)
    (h1 : List ℚ) (nrm : Bool) (hlen : h1.length = 1) :
    optimize_UPOLS_parameters cost 1 B = none ∧
    FIRfilter_init cost .upols B (some h1) none nrm = none := by
  have h2 : Nat.log2 1 = 0 := by with_unfolding_all decide
  have hopt : optimize_UPOLS_parameters cost 1 B = none := by
    simp [optimize_UPOLS_parameters, candidateLs, h2]
  exact ⟨hopt, by simp [FIRfilter_init, hlen, hopt]⟩

/-- Claim C9 witness at a concrete instance. -/
theorem C9_optimizer_unbound_length_one_witness :
    optimize_UPOLS_parameters cost0 1 5 = none ∧
    FIRfilter_init cost0 .upols 5 (some [3]) none true = none :=
  C9_optimizer_unbound_length_one cost0 5 [3] true rfl

/-- Claim C3 counterexample: an OLS engine with block size 4 and the stored
8-tap impulse response has NFFT = 11 after its first call; a second call that
supplies a length-12 impulse response leaves NFFT at 11 instead of rebuilding
it to 4 + 12 - 1 = 15 from the new impulse response. -/
theorem C3_counterexample :
    (processSt cost0
        (processSt cost0 (FIRfilter_init cost0 .ols 4 (some hC1) none false)
          [1, 2, 3, 4] none)
        [5, 6, 7, 8] (some (List.replicate 12 1))).map FIRState.NFFT
      = some (some 11) ∧ (some 11 : Option Nat) ≠ some (4 + 12 - 1) := by
  constructor
  · with_unfolding_all decide
  · decide

/-- Amended claim C3: a value-changed impulse response (of any length, equal or
different) never reinitializes the OLA/OLS engine state: NFFT and the buffers
are kept, and only H is recomputed - from the new impulse response truncated
or padded to the existing NFFT - with the flag then cleared.  For UPOLS any
value-changed impulse response reruns the whole setup before the block is
processed: NFFT is recomputed from the stored partition length, P is recomputed
from the new impulse response length, the partitioned filter rows are rebuilt,
and the input buffer and FDL are rebuilt from zeros (losing the stream
history). -/
theorem C3_amended (cost : Nat → Nat → ℚ) (s : FIRState) (x : List ℚ)
    (h0 h2 : List ℚ) (n : Nat) (hst : s.stored_h = some h0) (hne : h2 ≠ h0) :
    match s.method with
    | .ols => s.NFFT = some n → ∃ y s', process cost s x (some h2) = some (y, s') ∧
        s'.NFFT = some n ∧ s'.H = h2 ∧ s'.flagIRchanged = false ∧
        s'.OLS_input_buffer = setLastB (rollNeg s.OLS_input_buffer s.B) s.B x
    | .ola => s.NFFT = some n → ∃ y s', process cost s x (some h2) = some (y, s') ∧
        s'.NFFT = some n ∧ s'.H = h2 ∧ s'.flagIRchanged = false ∧
        s'.len_y_left = s.len_y_left ∧ s'.left_overs.length = s.left_overs.length
    | .upols => ∀ L, s.partition = some L → 0 < L → 0 < h2.length →
        ∃ y s', process cost s x (some h2) = some (y, s') ∧
        s'.NFFT = some (s.B + L + (s.B - Nat.gcd L s.B)) ∧
        s'.P = (h2.length + L - 1) / L ∧
        s'.Hrows = (List.range ((h2.length + L - 1) / L)).map
          (mkHrow (s.B + L + (s.B - Nat.gcd L s.B)) s.B L h2) ∧
        s'.input_buffer =
          setLastB (rollNeg (List.replicate (s.B + L + (s.B - Nat.gcd L s.B)) 0) s.B) s.B x ∧
        s'.flagIRchanged = false := by
  have hc : s.stored_h ≠ some h2 := by
    rw [hst]
    intro hEq
    exact hne (Option.some.inj hEq).symm
  rw [process_changed cost s x h2 hc]
  cases hmeth : s.method with
  | ols =>
    intro hn
    simp only [OLS_step, OLS_body, fft_conv, hn]
    exact ⟨_, _, rfl, rfl, rfl, rfl, rfl⟩
  | ola =>
    intro hn
    simp only [OLA_step, OLA_body, fft_conv, hn]
    refine ⟨_, _, rfl, rfl, rfl, rfl, rfl, ?_⟩
    simp [length_zeroLast, length_rollNeg]
  | upols =>
    intro L hL hLpos hh2
    have hLne : ¬ (L = 0) := by omega
    have hPpos : 1 ≤ (h2.length + L - 1) / L := by
      rw [Nat.le_div_iff_mul_le hLpos]
      omega
    have hPne : ¬ ((h2.length + L - 1) / L = 0) := by omega
    simp only [UPOLS_step, UPOLS_stream, UPOLS_setup, hL, if_neg hLne, if_neg hPne, Option.getD_some]
    exact ⟨_, _, rfl, rfl, rfl, rfl, rfl, rfl⟩

/-- Claim C3 amended, instantiated: the ready OLS engine fed a length-12
impulse response keeps NFFT = 11 and only updates H. -/
theorem C3_amended_witness :
    ∃ y s', process cost0 olsReadyW [1, 2, 3, 4] (some (List.replicate 12 1)) = some (y, s') ∧
      s'.NFFT = some 11 ∧ s'.H = List.replicate 12 1 ∧ s'.flagIRchanged = false ∧
      s'.OLS_input_buffer =
        setLastB (rollNeg olsReadyW.OLS_input_buffer olsReadyW.B) olsReadyW.B [1, 2, 3, 4] :=
  (C3_amended cost0 olsReadyW [1, 2, 3, 4] hC1 (List.replicate 12 1) 11 rfl
    (by with_unfolding_all decide)) rfl

/-- Claim C6 counterexample: process performs no shape validation.  An OLA
engine with block size 4 accepts the length-3 block [1,2,3] without any error
and returns the 4-sample block [1,2,3,0] (the transform zero-pads the short
block), instead of raising a runtime error at the start of the call. -/
theorem C6_counterexample :
    (match FIRfilter_init cost0 .ola 4 (some hC1) none false with
     | some s0 => (process cost0 s0 [1, 2, 3] none).map Prod.fst
     | none => none) = some (some [1, 2, 3, 0]) := by
  with_unfolding_all decide

/-- Amended claim C6: process never validates the shape of the input block.
For the OLA method a block of any length is processed without error - the
transform implicitly zero-pads or truncates it to NFFT - and whatever output
block is returned has length B (shape mismatches in the other methods surface,
if at all, only inside numpy buffer assignments, after state has been
mutated). -/
theorem C6_amended (cost : Nat → Nat → ℚ) (s : FIRState) (x : List ℚ) (h0 : List ℚ)
    (hmeth : s.method = .ola) (hst : s.stored_h = some h0) :
    ∃ y s', process cost s x none = some (y, s') ∧ ∀ l, y = some l → l.length = s.B := by
  rw [process_none, hmeth]
  cases hn : s.NFFT with
  | none =>
    simp only [OLA_step, OLA_body, hst, hn, fft_conv]
    cases hflag : s.flagIRchanged
    · refine ⟨_, _, rfl, ?_⟩
      intro l hl
      simp only [finishOut] at hl
      split at hl
      · split at hl
        · exact absurd hl (by simp)
        · cases hl with
          | refl => simp [normalize_output]
      · cases hl with
        | refl => simp
    · refine ⟨_, _, rfl, ?_⟩
      intro l hl
      simp only [finishOut] at hl
      split at hl
      · split at hl
        · exact absurd hl (by simp)
        · cases hl with
          | refl => simp [normalize_output]
      · cases hl with
        | refl => simp
  | some n =>
    simp only [OLA_step, OLA_body, hst, hn, fft_conv]
    cases hflag : s.flagIRchanged
    · refine ⟨_, _, rfl, ?_⟩
      intro l hl
      simp only [finishOut] at hl
      split at hl
      · split at hl
        · exact absurd hl (by simp)
        · cases hl with
          | refl => simp [normalize_output]
      · cases hl with
        | refl => simp
    · refine ⟨_, _, rfl, ?_⟩
      intro l hl
      simp only [finishOut] at hl
      split at hl
      · split at hl
        · exact absurd hl (by simp)
        · cases hl with
          | refl => simp [normalize_output]
      · cases hl with
        | refl => simp

/- Output-shape lemmas shared by the error-handling claims. -/

lemma finishOut_length (s : FIRState) (out l : List ℚ)
    (hl : finishOut s out = some l) : l.length = out.length := by
  simp only [finishOut] at hl
  split at hl
  · split at hl
    · exact absurd hl (by simp)
    · cases hl with
      | refl => simp [normalize_output]
  · cases hl with
    | refl => rfl

lemma finishOut_none (s : FIRState) (out : List ℚ)
    (h1 : s.normalize = true) (h0 : s.ref = 0) : finishOut s out = none := by
  simp [finishOut, h1, h0]

lemma refOf_replicate_zero (m : Nat) : refOf (List.replicate m (0 : ℚ)) = 0 := by
  simp [refOf, List.map_replicate]

/- Totality of the three method bodies: each call completes and returns
finishOut of a block, with the reference and normalize flag untouched. -/

lemma OLA_step_total (s : FIRState) (x : List ℚ) (h0 : List ℚ)
    (hst : s.stored_h = some h0) :
    ∃ out s', OLA_step s x = some (finishOut s' out, s') ∧
      s'.ref = s.ref ∧ s'.normalize = s.normalize ∧ out.length = s.B := by
  cases hn : s.NFFT with
  | none =>
    cases hf : s.flagIRchanged <;>
      · simp only [OLA_step, OLA_body, hst, hn, fft_conv, hf]
        exact ⟨_, _, rfl, rfl, rfl, by simp⟩
  | some n =>
    cases hf : s.flagIRchanged <;>
      · simp only [OLA_step, OLA_body, hst, hn, fft_conv, hf]
        exact ⟨_, _, rfl, rfl, rfl, by simp⟩

lemma OLS_step_total (s : FIRState) (x : List ℚ) (h0 : List ℚ)
    (hst : s.stored_h = some h0) :
    ∃ out s', OLS_step s x = some (finishOut s' out, s') ∧
      s'.ref = s.ref ∧ s'.normalize = s.normalize := by
  cases hn : s.NFFT with
  | none =>
    cases hf : s.flagIRchanged <;>
      · simp only [OLS_step, OLS_body, hst, hn, fft_conv, hf]
        exact ⟨_, _, rfl, rfl, rfl⟩
  | some n =>
    cases hf : s.flagIRchanged <;>
      · simp only [OLS_step, OLS_body, hst, hn, fft_conv, hf]
        exact ⟨_, _, rfl, rfl, rfl⟩

lemma UPOLS_step_total (cost : Nat → Nat → ℚ) (s : FIRState) (x : List ℚ) (h0 : List ℚ)
    (L : Nat) (hst : s.stored_h = some h0) (hL : s.partition = some L)
    (hLpos : 0 < L) (hh : 0 < h0.length) :
    ∃ out s', UPOLS_step cost s x = some (finishOut s' out, s') ∧
      s'.ref = s.ref ∧ s'.normalize = s.normalize := by
  cases hf : s.flagIRchanged with
  | false =>
    simp only [UPOLS_step, UPOLS_stream, hst, hf, if_false, Bool.false_eq_true]
    exact ⟨_, _, rfl, rfl, rfl⟩
  | true =>
    have hLne : ¬ (L = 0) := by omega
    have hPpos : 1 ≤ (h0.length + L - 1) / L := by
      rw [Nat.le_div_iff_mul_le hLpos]
      omega
    have hPne : ¬ ((h0.length + L - 1) / L = 0) := by omega
    simp only [UPOLS_step, UPOLS_stream, hst, hf, UPOLS_setup, hL, if_neg hLne, if_neg hPne,
      if_true, Option.getD_some]
    exact ⟨_, _, rfl, rfl, rfl⟩

/-- Claim C8: a UPOLS engine whose impulse response is shorter than one
partition (Nh < L) builds and processes without any division or other error:
construction succeeds, the single partial partition is zero-padded (by the
transform) to the full transform length, P = 1, and the call returns a
length-B block. -/
theorem C8_upols_partial_partition (cost : Nat → Nat → ℚ) (B L : Nat)
    (h x : List ℚ) (nrm : Bool) (hB : 0 < B) (hh : 0 < h.length) (hLgt : h.length < L) :
    ∃ s0, FIRfilter_init cost .upols B (some h) (some L) nrm = some s0 ∧
      ∃ y s', process cost s0 x none = some (y, s') ∧
        s'.P = 1 ∧
        s'.Hrows = [h ++ List.replicate (B + L + (B - Nat.gcd L B) - h.length) 0] ∧
        ∀ l, y = some l → l.length = B := by
  have hLpos : 0 < L := by omega
  have hLne : ¬ (L = 0) := by omega
  have hP1 : (h.length + L - 1) / L = 1 :=
    Nat.div_eq_of_lt_le (by omega) (by omega)
  have hPne : ¬ ((h.length + L - 1) / L = 0) := by omega
  have htk : h.take L = h := List.take_of_length_le (by omega)
  have htk2 : h.take (B + L + (B - Nat.gcd L B)) = h := List.take_of_length_le (by omega)
  have hrange : List.range 1 = [0] := rfl
  refine ⟨_, rfl, ?_⟩
  rw [process_none]
  simp only [UPOLS_step, UPOLS_stream, UPOLS_setup, if_true, Option.getD_some, if_neg hLne,
    if_neg hPne, hP1, hrange, List.map_cons, List.map_nil, mkHrow, Nat.zero_mul, List.drop_zero,
    Nat.zero_mod, pad_beginning, List.replicate_zero, List.nil_append, fftPad, htk, htk2]
  refine ⟨_, _, rfl, rfl, rfl, ?_⟩
  intro l hl
  rw [finishOut_length _ _ _ hl]
  simp only [List.length_drop, List.length_map, List.length_range, Option.getD_some]
  omega

/-- Claim C8 witness: B = 4, L = 8, a 3-tap impulse response. -/
theorem C8_upols_partial_partition_witness :
    ∃ s0, FIRfilter_init cost0 .upols 4 (some [1, 2, 3]) (some 8) false = some s0 ∧
      ∃ y s', process cost0 s0 [1, 1, 1, 1] none = some (y, s') ∧
        s'.P = 1 ∧
        s'.Hrows = [[1, 2, 3] ++ List.replicate (4 + 8 + (4 - Nat.gcd 8 4) - [1, 2, 3].length) 0] ∧
        ∀ l, y = some l → l.length = 4 :=
  C8_upols_partial_partition cost0 4 8 [1, 2, 3] [1, 1, 1, 1] false
    (by norm_num) (by norm_num) (by norm_num)

/-- Claim C10: with a stored all-zero impulse response and normalize set, the
normalization reference generate_ref computes is exactly 0, and every process
call completes by dividing the block by that zero reference, so no finite
output block is returned. -/
theorem C10_zero_reference_no_finite_output (cost : Nat → Nat → ℚ) (s : FIRState)
    (x : List ℚ) (m : Nat) (hm : 0 < m)
    (hst : s.stored_h = some (List.replicate m 0))
    (href : s.ref = refOf (List.replicate m 0)) (hnorm : s.normalize = true)
    (hup : s.method = .upols → ∃ L, s.partition = some L ∧ 0 < L) :
    refOf (List.replicate m (0 : ℚ)) = 0 ∧
      ∃ s', process cost s x none = some (none, s') := by
  have hz := refOf_replicate_zero m
  refine ⟨hz, ?_⟩
  have hrefz : s.ref = 0 := href.trans hz
  rw [process_none]
  cases hmeth : s.method with
  | ols =>
    obtain ⟨out, s', hEq, hr, hn⟩ := OLS_step_total s x _ hst
    exact ⟨s', by rw [hEq, finishOut_none s' out (hn.trans hnorm) (hr.trans hrefz)]⟩
  | ola =>
    obtain ⟨out, s', hEq, hr, hn, -⟩ := OLA_step_total s x _ hst
    exact ⟨s', by rw [hEq, finishOut_none s' out (hn.trans hnorm) (hr.trans hrefz)]⟩
  | upols =>
    obtain ⟨L, hL, hLp⟩ := hup hmeth
    obtain ⟨out, s', hEq, hr, hn⟩ :=
      UPOLS_step_total cost s x _ L hst hL hLp (by simp [hm])
    exact ⟨s', by rw [hEq, finishOut_none s' out (hn.trans hnorm) (hr.trans hrefz)]⟩

/-- Claim C10 witness on a concrete zero-filter engine. -/
theorem C10_zero_reference_no_finite_output_witness :
    refOf (List.replicate 2 (0 : ℚ)) = 0 ∧
      ∃ s', process cost0 zeroRefW [1, 1] none = some (none, s') :=
  C10_zero_reference_no_finite_output cost0 zeroRefW [1, 1] 2 (by norm_num) rfl
    (refOf_replicate_zero 2).symm rfl (fun hcon => nomatch hcon)

/-- Claim C6 amended witness: a fresh OLA engine accepts a length-2 block. -/
theorem C6_amended_witness :
    ∃ y s', process cost0 olaFreshW [1, 2] none = some (y, s') ∧
      ∀ l, y = some l → l.length = olaFreshW.B :=
  C6_amended cost0 olaFreshW [1, 2] hC1 rfl rfl

/- Index-level reading lemmas for the buffer claims. -/

lemma getd_nil (i : Nat) : getd [] i = 0 := rfl

lemma getd_append_lt (l1 l2 : List ℚ) (i : Nat) (h : i < l1.length) :
    getd (l1 ++ l2) i = getd l1 i := by
  simp [getd, List.getD, List.getElem?_append_left h]

lemma getd_append_ge (l1 l2 : List ℚ) (i : Nat) (h : l1.length ≤ i) :
    getd (l1 ++ l2) i = getd l2 (i - l1.length) := by
  simp [getd, List.getD, List.getElem?_append_right h]

lemma getd_take (l : List ℚ) (k i : Nat) (h : i < k) :
    getd (l.take k) i = getd l i := by
  simp [getd, List.getD, List.getElem?_take, h]

lemma getd_drop (l : List ℚ) (k i : Nat) : getd (l.drop k) i = getd l (k + i) := by
  simp [getd, List.getD, List.getElem?_drop]

lemma getd_eq_zero_of_le (l : List ℚ) (i : Nat) (h : l.length ≤ i) : getd l i = 0 := by
  simp [getd, List.getD, List.getElem?_eq_none h]

lemma getd_replicate (k i : Nat) : getd (List.replicate k (0 : ℚ)) i = 0 := by
  rcases lt_or_ge i k with h | h
  · simp [getd, List.getD, List.getElem?_replicate, h]
  · exact getd_eq_zero_of_le _ _ (by simpa using h)

lemma getd_map_range (f : Nat → ℚ) (n i : Nat) (h : i < n) :
    getd ((List.range n).map f) i = f i := by
  simp [getd, List.getD, List.getElem?_map, List.getElem?_range h]

/-- Hypothesis-free description of the dispatch body used by the memoization
claim: the returned state has a cleared flag, and H (the UPOLS filter matrix
in the upols case) is recomputed from the stored impulse response exactly when
the flag was set, and reused untouched otherwise. -/
lemma dispatch_H (cost : Nat → Nat → ℚ) (s : FIRState) (x : List ℚ) (h0 : List ℚ)
    (hst : s.stored_h = some h0)
    (hup : s.method = .upols → ∃ L, s.partition = some L ∧ 0 < L ∧ 0 < h0.length) :
    ∃ y s', (match s.method with
             | .ols => OLS_step s x
             | .ola => OLA_step s x
             | .upols => UPOLS_step cost s x) = some (y, s') ∧
      s'.flagIRchanged = false ∧
      (s.flagIRchanged = true →
        (match s.method with
         | .upols => s'.Hrows = (List.range s'.P).map
             (mkHrow (s'.NFFT.getD 0) s.B (s'.partition.getD 0) h0)
         | _ => s'.H = h0)) ∧
      (s.flagIRchanged = false →
        (match s.method with
         | .upols => s'.Hrows = s.Hrows
         | _ => s'.H = s.H)) := by
  cases hmeth : s.method with
  | ols =>
    cases hn : s.NFFT with
    | none =>
      cases hf : s.flagIRchanged <;>
      · simp only [OLS_step, OLS_body, hst, hn, fft_conv, hf]
        refine ⟨_, _, rfl, ?_, ?_, ?_⟩
        · first | rfl | exact hf
        · intro hcon; first | rfl | cases hcon
        · intro hcon; first | rfl | cases hcon
    | some n =>
      cases hf : s.flagIRchanged <;>
      · simp only [OLS_step, OLS_body, hst, hn, fft_conv, hf]
        refine ⟨_, _, rfl, ?_, ?_, ?_⟩
        · first | rfl | exact hf
        · intro hcon; first | rfl | cases hcon
        · intro hcon; first | rfl | cases hcon
  | ola =>
    cases hn : s.NFFT with
    | none =>
      cases hf : s.flagIRchanged <;>
      · simp only [OLA_step, OLA_body, hst, hn, fft_conv, hf]
        refine ⟨_, _, rfl, ?_, ?_, ?_⟩
        · first | rfl | exact hf
        · intro hcon; first | rfl | cases hcon
        · intro hcon; first | rfl | cases hcon
    | some n =>
      cases hf : s.flagIRchanged <;>
      · simp only [OLA_step, OLA_body, hst, hn, fft_conv, hf]
        refine ⟨_, _, rfl, ?_, ?_, ?_⟩
        · first | rfl | exact hf
        · intro hcon; first | rfl | cases hcon
        · intro hcon; first | rfl | cases hcon
  | upols =>
    cases hf : s.flagIRchanged
    · simp only [UPOLS_step, UPOLS_stream, hst, hf, Bool.false_eq_true, if_false]
      refine ⟨_, _, rfl, ?_, ?_, ?_⟩
      · first | rfl | exact hf
      · intro hcon; first | rfl | cases hcon
      · intro hcon; first | rfl | cases hcon
    · obtain ⟨L, hL, hLp, hh⟩ := hup hmeth
      have hLne : ¬ (L = 0) := by omega
      have hPpos : 1 ≤ (h0.length + L - 1) / L := by
        rw [Nat.le_div_iff_mul_le hLp]
        omega
      have hPne : ¬ ((h0.length + L - 1) / L = 0) := by omega
      simp only [UPOLS_step, hst, hf, UPOLS_setup, hL, if_neg hLne, if_neg hPne, if_true,
        Option.getD_some]
      refine ⟨_, _, rfl, ?_, ?_, ?_⟩
      · first | rfl | exact hf
      · intro hcon; first | rfl | cases hcon
      · intro hcon; first | rfl | cases hcon

/-- Claim C4: across process calls, the cached filter transform is recomputed
from the (possibly just replaced) stored impulse response exactly when the
impulse-response-changed flag is set at dispatch time, and the flag is cleared
by the end of the call; when the flag is clear the previously stored transform
is reused untouched. -/
theorem C4_H_recomputed_iff_flag (cost : Nat → Nat → ℚ) (s : FIRState) (x : List ℚ)
    (hIn : Option (List ℚ)) (h0 : List ℚ) (hst : s.stored_h = some h0)
    (hup : s.method = .upols →
      ∃ L, s.partition = some L ∧ 0 < L ∧ 0 < ((storedAfter s hIn).getD []).length) :
    ∃ y s', process cost s x hIn = some (y, s') ∧
      s'.flagIRchanged = false ∧
      (flagAfter s hIn = true →
        (match s.method with
         | .upols => s'.Hrows = (List.range s'.P).map
             (mkHrow (s'.NFFT.getD 0) s.B (s'.partition.getD 0) ((storedAfter s hIn).getD []))
         | _ => s'.H = (storedAfter s hIn).getD [])) ∧
      (flagAfter s hIn = false →
        (match s.method with
         | .upols => s'.Hrows = s.Hrows
         | _ => s'.H = s.H)) := by
  cases hIn with
  | none =>
    have hsa : (storedAfter s none).getD [] = h0 := by
      simp [storedAfter, hst]
    have hfa : flagAfter s none = s.flagIRchanged := rfl
    rw [hsa, hfa]
    obtain ⟨y, s', h1, h2, h3, h4⟩ := dispatch_H cost s x h0 hst
      (by simpa [hsa] using hup)
    exact ⟨y, s', by rw [process_none]; exact h1, h2, h3, h4⟩
  | some hnew =>
    by_cases heq : s.stored_h = some hnew
    · have hsa : (storedAfter s (some hnew)).getD [] = h0 := by
        rw [hst] at heq
        simp [storedAfter, (Option.some.inj heq).symm]
      have hfa : flagAfter s (some hnew) = s.flagIRchanged := by
        simp [flagAfter, heq]
      rw [hsa, hfa]
      obtain ⟨y, s', h1, h2, h3, h4⟩ := dispatch_H cost s x h0 hst
        (by simpa [hsa] using hup)
      exact ⟨y, s', by rw [process_same cost s x hnew heq]; exact h1, h2, h3, h4⟩
    · have hsa : (storedAfter s (some hnew)).getD [] = hnew := by
        simp [storedAfter]
      have hfa : flagAfter s (some hnew) = true := by
        simp [flagAfter, heq]
      rw [hsa, hfa]
      obtain ⟨y, s', h1, h2, h3, h4⟩ := dispatch_H cost
        { s with flagIRchanged := true, stored_h := some hnew, ref := refOf hnew } x hnew rfl
        (by simpa [hsa] using hup)
      refine ⟨y, s', by rw [process_changed cost s x hnew heq]; exact h1, h2, ?_, ?_⟩
      · intro hx2
        exact h3 rfl
      · intro hcon
        exact nomatch hcon

/-- Claim C4 witness: an unchanged impulse response on a ready OLS engine with
a clear flag reuses H. -/
theorem C4_H_recomputed_iff_flag_witness :
    ∃ y s', process cost0 olsReadyW [1, 2, 3, 4] none = some (y, s') ∧
      s'.flagIRchanged = false ∧
      (flagAfter olsReadyW none = true → s'.H = (storedAfter olsReadyW none).getD []) ∧
      (flagAfter olsReadyW none = false → s'.H = olsReadyW.H) :=
  C4_H_recomputed_iff_flag cost0 olsReadyW [1, 2, 3, 4] none hC1 rfl
    (fun hcon => nomatch hcon)

/- Buffer-shift lemmas. -/

lemma setLast_drop (a x : List ℚ) (B : Nat) (hB : B ≤ a.length) (hx : x.length = B) :
    setLastB (rollNeg a B) B x = a.drop B ++ x := by
  have h1 : (rollNeg a B).length = a.length := length_rollNeg a B
  simp only [setLastB, h1, rollNeg]
  congr 1
  exact List.take_left' (by simp; omega)

lemma rollPos1_tail (rows : List (List ℚ)) : (rollPos1 rows).tail = rows.dropLast := by
  rcases List.eq_nil_or_concat rows with h | ⟨L, b, h⟩
  · subst h; rfl
  · subst h
    simp only [List.concat_eq_append, rollPos1, List.length_append, List.length_cons,
      List.length_nil, Nat.zero_add, Nat.add_sub_cancel]
    rw [List.drop_left' rfl, List.take_left' rfl]
    simp [List.dropLast_concat]

lemma getd_carry (lo : List ℚ) (B n i : Nat) (hlen : lo.length = n) (hBn : B ≤ n) :
    getd (zeroLast (rollNeg lo B) B) i = if i < n - B then getd lo (B + i) else 0 := by
  have h1 : (rollNeg lo B).length = lo.length := length_rollNeg lo B
  by_cases hi : i < n - B
  · rw [if_pos hi]
    simp only [zeroLast, h1, hlen]
    rw [getd_append_lt _ _ _ (by simp [h1, hlen]; omega)]
    rw [getd_take _ _ _ hi]
    simp only [rollNeg]
    rw [getd_append_lt _ _ _ (by simp [hlen]; omega)]
    rw [getd_drop]
  · rw [if_neg hi]
    rcases lt_or_ge i n with hin | hin
    · simp only [zeroLast, h1, hlen]
      rw [getd_append_ge _ _ _ (by simp [h1, hlen]; omega)]
      exact getd_replicate _ _
    · apply getd_eq_zero_of_le
      rw [length_zeroLast, h1, hlen]
      omega

/-- Claim C7: in the steady state (flag clear), every ring and delay buffer of
the selected method has length exactly NFFT, and one process call shifts each
of them by exactly one block of B samples. -/
theorem C7_buffer_lengths_and_shift (cost : Nat → Nat → ℚ) (s : FIRState) (x : List ℚ)
    (h0 : List ℚ) (n : Nat) (hst : s.stored_h = some h0) (hn : s.NFFT = some n)
    (hf : s.flagIRchanged = false) (hBn : s.B ≤ n) (hx : x.length = s.B)
    (hbuf : buffersLenOk s n) (hlyl : s.method = .ola → s.len_y_left = n - s.B) :
    ∃ y s', process cost s x none = some (y, s') ∧ s'.NFFT = some n ∧
      buffersLenOk s' n ∧ shiftedByB s s' n x := by
  rw [process_none]
  cases hmeth : s.method with
  | ols =>
    simp only [buffersLenOk, hmeth] at hbuf
    simp only [OLS_step, OLS_body, hst, hn, fft_conv, hf]
    refine ⟨_, _, rfl, rfl, ?_, ?_⟩
    · simp only [buffersLenOk, hmeth]
      rw [setLast_drop _ _ s.B (by omega) hx]
      simp only [List.length_append, List.length_drop, hbuf, hx]
      omega
    · simp only [shiftedByB, hmeth]
      exact setLast_drop _ _ s.B (by omega) hx
  | ola =>
    simp only [buffersLenOk, hmeth] at hbuf
    have hly := hlyl hmeth
    simp only [OLA_step, OLA_body, hst, hn, fft_conv, hf]
    refine ⟨_, _, rfl, ?_, ?_, ?_⟩
    · first | rfl | exact hn
    · simp only [buffersLenOk, hmeth]
      simp only [List.length_map, List.length_range, length_zeroLast, length_rollNeg, hbuf]
    · simp only [shiftedByB, hmeth]
      intro i hi
      have hlo0 : (zeroLast (rollNeg s.left_overs s.B) s.B).length = n := by
        rw [length_zeroLast, length_rollNeg, hbuf]
      rw [show (List.range (zeroLast (rollNeg s.left_overs s.B) s.B).length) =
        List.range n by rw [hlo0]]
      rw [getd_map_range _ _ _ hi]
      rw [getd_carry s.left_overs s.B n i hbuf hBn, hly]
      by_cases hcase : i < n - s.B
      · rw [if_pos hcase, if_pos hcase, if_pos hcase]
      · rw [if_neg hcase, if_neg hcase, if_neg hcase]
  | upols =>
    simp only [buffersLenOk, hmeth] at hbuf
    obtain ⟨hlen, hFne, hrows⟩ := hbuf
    simp only [UPOLS_step, hst, hf, Bool.false_eq_true, if_false, hn, Option.getD_some]
    have hbufEq : setLastB (rollNeg s.input_buffer s.B) s.B x = s.input_buffer.drop s.B ++ x :=
      setLast_drop _ _ _ (by omega) hx
    have hbufLen : (s.input_buffer.drop s.B ++ x).length = n := by
      simp only [List.length_append, List.length_drop, hlen, hx]
      omega
    refine ⟨_, _, rfl, ?_, ?_, ?_⟩
    · first | rfl | exact hn
    · simp only [buffersLenOk, hmeth]
      refine ⟨by rw [hbufEq]; exact hbufLen, by simp, ?_⟩
      intro r hr
      rw [rollPos1_tail] at hr
      rcases List.mem_cons.mp hr with h | h
      · subst h
        rw [hbufEq]; exact hbufLen
      · exact hrows r ((List.dropLast_sublist s.FDL).subset h)
    · simp only [shiftedByB, hmeth]
      refine ⟨hbufEq, by rw [rollPos1_tail, hbufEq], ?_⟩
      rw [rollPos1_tail]
      simp only [List.length_cons, List.length_dropLast]
      have : s.FDL.length ≠ 0 := by
        intro hc
        exact hFne (List.length_eq_zero.mp hc)
      omega

/-- Claim C7 witness on the ready OLS engine. -/
theorem C7_buffer_lengths_and_shift_witness :
    ∃ y s', process cost0 olsReadyW [1, 2, 3, 4] none = some (y, s') ∧ s'.NFFT = some 11 ∧
      buffersLenOk s' 11 ∧ shiftedByB olsReadyW s' 11 [1, 2, 3, 4] :=
  C7_buffer_lengths_and_shift cost0 olsReadyW [1, 2, 3, 4] hC1 11 rfl rfl rfl
    (by decide) rfl (by simp [buffersLenOk, olsReadyW]) (fun hcon => nomatch hcon)

/- Arithmetic layer for the normalization-bound claim. -/

lemma list_sum_range (f : Nat → ℚ) (n : Nat) :
    ((List.range n).map f).sum = ∑ k in Finset.range n, f k := by
  induction n with
  | zero => rfl
  | succ n ih =>
    rw [List.range_succ, List.map_append, List.sum_append, ih, Finset.sum_range_succ]
    simp

lemma refOf_nonneg (h : List ℚ) : 0 ≤ refOf h := by
  apply List.sum_nonneg
  intro v hv
  obtain ⟨w, -, rfl⟩ := List.mem_map.mp hv
  exact abs_nonneg w

lemma refOf_append (a b : List ℚ) : refOf (a ++ b) = refOf a + refOf b := by
  simp [refOf]

lemma getd_cons_succ (a : ℚ) (t : List ℚ) (k : Nat) : getd (a :: t) (k + 1) = getd t k := rfl

lemma getd_cons_zero (a : ℚ) (t : List ℚ) : getd (a :: t) 0 = a := rfl

lemma refOf_eq_sum_range (h : List ℚ) :
    refOf h = ∑ k in Finset.range h.length, |getd h k| := by
  induction h with
  | nil => rfl
  | cons a t ih =>
    rw [show (a :: t).length = t.length + 1 from rfl, Finset.sum_range_succ']
    simp only [getd_cons_succ, getd_cons_zero]
    rw [refOf, List.map_cons, List.sum_cons, ← refOf, ih]
    ring

lemma sum_range_abs_eq_refOf (h : List ℚ) (m : Nat) (hm : h.length ≤ m) :
    ∑ k in Finset.range m, |getd h k| = refOf h := by
  rw [refOf_eq_sum_range]
  simp only [Finset.range_eq_Ico]
  rw [← Finset.sum_Ico_consecutive (fun k => |getd h k|) (Nat.zero_le h.length) hm]
  have hzero : ∑ k in Finset.Ico h.length m, |getd h k| = 0 := by
    apply Finset.sum_eq_zero
    intro k hk
    rw [getd_eq_zero_of_le h k (Finset.mem_Ico.mp hk).1, abs_zero]
  rw [hzero, add_zero]

lemma sum_range_abs_le_refOf (h : List ℚ) (m : Nat) :
    ∑ k in Finset.range m, |getd h k| ≤ refOf h := by
  rcases le_or_lt h.length m with hm | hm
  · rw [sum_range_abs_eq_refOf h m hm]
  · rw [refOf_eq_sum_range]
    apply Finset.sum_le_sum_of_subset_of_nonneg
    · exact Finset.range_subset.mpr (by omega)
    · intro k _ _
      exact abs_nonneg _

lemma sum_Ico_abs_eq_Stail (h : List ℚ) (a b : Nat) (hb : h.length ≤ b) :
    ∑ k in Finset.Ico a b, |getd h k| = Stail h a := by
  rcases le_or_lt a h.length with ha | ha
  · rw [Stail, ← Finset.sum_Ico_consecutive (fun k => |getd h k|) ha hb]
    have hzero : ∑ k in Finset.Ico h.length b, |getd h k| = 0 := by
      apply Finset.sum_eq_zero
      intro k hk
      rw [getd_eq_zero_of_le h k (Finset.mem_Ico.mp hk).1, abs_zero]
    rw [hzero, add_zero]
  · have h1 : Stail h a = 0 := by
      rw [Stail, Finset.Ico_eq_empty (by omega), Finset.sum_empty]
    have h2 : ∑ k in Finset.Ico a b, |getd h k| = 0 := by
      apply Finset.sum_eq_zero
      intro k hk
      rw [getd_eq_zero_of_le h k (by have := (Finset.mem_Ico.mp hk).1; omega), abs_zero]
    rw [h1, h2]

lemma Stail_nonneg (h : List ℚ) (a : Nat) : 0 ≤ Stail h a := by
  apply Finset.sum_nonneg
  intro k _
  exact abs_nonneg _

lemma Stail_split (h : List ℚ) (a B : Nat) :
    Stail h a = (∑ k in Finset.Ico a (a + B), |getd h k|) + Stail h (a + B) := by
  rcases le_or_lt (a + B) h.length with hb | hb
  · rw [Stail, Stail,
      ← Finset.sum_Ico_consecutive (fun k => |getd h k|) (by omega : a ≤ a + B) hb]
  · have h1 : Stail h (a + B) = 0 := by
      rw [Stail, Finset.Ico_eq_empty (by omega), Finset.sum_empty]
    rw [h1, add_zero, sum_Ico_abs_eq_Stail h a (a + B) (by omega)]

lemma head_plus_Stail (h : List ℚ) (j : Nat) :
    (∑ k in Finset.range (j + 1), |getd h k|) + Stail h (j + 1) = refOf h := by
  rcases le_or_lt (j + 1) h.length with hj | hj
  · rw [refOf_eq_sum_range, Stail]
    simp only [Finset.range_eq_Ico]
    rw [← Finset.sum_Ico_consecutive (fun k => |getd h k|) (Nat.zero_le (j + 1)) hj]
  · have h1 : Stail h (j + 1) = 0 := by
      rw [Stail, Finset.Ico_eq_empty (by omega), Finset.sum_empty]
    rw [h1, add_zero, sum_range_abs_eq_refOf h (j + 1) (by omega)]

lemma mod_two_cases (a n : Nat) (h1 : a < 2 * n) :
    a % n = if n ≤ a then a - n else a := by
  rcases Nat.eq_zero_or_pos n with hn | hn
  · subst hn
    simp
  · split
    · rw [Nat.mod_eq_sub_mod (by omega), Nat.mod_eq_of_lt (by omega)]
    · exact Nat.mod_eq_of_lt (by omega)

lemma cconvEntry_finset (n : Nat) (x h : List ℚ) (j : Nat) :
    cconvEntry n x h j = ∑ k in Finset.range n, getd h k * getd x ((j + n - k) % n) := by
  rw [cconvEntry, list_sum_range]

lemma EntB_of_mem (x : List ℚ) (hx : ∀ v ∈ x, |v| ≤ 1) : EntB x := by
  intro i
  rcases lt_or_ge i x.length with hi | hi
  · have hmem : x.getD i 0 ∈ x := by
      rw [List.getD_eq_getElem x 0 hi]
      exact List.getElem_mem hi
    exact hx _ hmem
  · rw [getd_eq_zero_of_le x i hi, abs_zero]
    norm_num

lemma cconvEntry_abs_le (n : Nat) (x h : List ℚ) (j : Nat) (hx : EntB x) :
    |cconvEntry n x h j| ≤ ∑ k in Finset.range n, |getd h k| := by
  rw [cconvEntry_finset]
  refine le_trans (Finset.abs_sum_le_sum_abs _ _) ?_
  apply Finset.sum_le_sum
  intro k _
  rw [abs_mul]
  calc |getd h k| * |getd x ((j + n - k) % n)| ≤ |getd h k| * 1 := by
        apply mul_le_mul_of_nonneg_left (hx _) (abs_nonneg _)
    _ = |getd h k| := mul_one _

lemma cconvEntry_le_refOf (n : Nat) (x h : List ℚ) (j : Nat) (hx : EntB x) :
    |cconvEntry n x h j| ≤ refOf h :=
  le_trans (cconvEntry_abs_le n x h j hx) (sum_range_abs_le_refOf h n)

lemma cconvEntry_low (n B : Nat) (x h : List ℚ) (j : Nat)
    (hx : EntB x) (hxlen : x.length ≤ B) (hj : j < B)
    (hn : n = B + h.length - 1) (hh : 0 < h.length) :
    |cconvEntry n x h j| ≤ ∑ k in Finset.range (j + 1), |getd h k| := by
  have hjn : j + 1 ≤ n := by omega
  rw [cconvEntry_finset]
  refine le_trans (Finset.abs_sum_le_sum_abs _ _) ?_
  have hsplit : ∑ k in Finset.range n, |getd h k * getd x ((j + n - k) % n)|
      = (∑ k in Finset.Ico 0 (j + 1), |getd h k * getd x ((j + n - k) % n)|)
        + ∑ k in Finset.Ico (j + 1) n, |getd h k * getd x ((j + n - k) % n)| := by
    simp only [Finset.range_eq_Ico]
    rw [Finset.sum_Ico_consecutive _ (Nat.zero_le (j + 1)) hjn]
  rw [hsplit]
  have hzero : ∑ k in Finset.Ico (j + 1) n, |getd h k * getd x ((j + n - k) % n)| = 0 := by
    apply Finset.sum_eq_zero
    intro k hk
    obtain ⟨hk1, hk2⟩ := Finset.mem_Ico.mp hk
    rcases le_or_lt k (j + h.length - 1) with hkle | hkgt
    · have hidx : (j + n - k) % n = j + n - k := Nat.mod_eq_of_lt (by omega)
      rw [hidx, getd_eq_zero_of_le x _ (by omega), mul_zero, abs_zero]
    · rw [getd_eq_zero_of_le h k (by omega), zero_mul, abs_zero]
  rw [hzero, add_zero, ← Finset.range_eq_Ico]
  apply Finset.sum_le_sum
  intro k hk
  rw [abs_mul]
  calc |getd h k| * |getd x ((j + n - k) % n)| ≤ |getd h k| * 1 :=
        mul_le_mul_of_nonneg_left (hx _) (abs_nonneg _)
    _ = |getd h k| := mul_one _

lemma cconvEntry_tail (n B : Nat) (x h : List ℚ) (j : Nat)
    (hx : EntB x) (hxlen : x.length ≤ B) (hj : j < n - B)
    (hn : n = B + h.length - 1) (hB : 0 < B) :
    |cconvEntry n x h (B + j)| ≤ ∑ k in Finset.Ico (j + 1) (j + 1 + B), |getd h k| := by
  have hh : 0 < h.length := by omega
  have h1 : j + 1 ≤ n := by omega
  have h2 : j + 1 + B ≤ n := by omega
  rw [cconvEntry_finset]
  refine le_trans (Finset.abs_sum_le_sum_abs _ _) ?_
  have hsplit : ∑ k in Finset.range n, |getd h k * getd x ((B + j + n - k) % n)|
      = (∑ k in Finset.Ico 0 (j + 1), |getd h k * getd x ((B + j + n - k) % n)|)
        + ((∑ k in Finset.Ico (j + 1) (j + 1 + B), |getd h k * getd x ((B + j + n - k) % n)|)
           + ∑ k in Finset.Ico (j + 1 + B) n, |getd h k * getd x ((B + j + n - k) % n)|) := by
    simp only [Finset.range_eq_Ico]
    rw [Finset.sum_Ico_consecutive _ (by omega : j + 1 ≤ j + 1 + B) h2,
      Finset.sum_Ico_consecutive _ (Nat.zero_le (j + 1)) h1]
  rw [hsplit]
  have hz1 : ∑ k in Finset.Ico 0 (j + 1), |getd h k * getd x ((B + j + n - k) % n)| = 0 := by
    apply Finset.sum_eq_zero
    intro k hk
    obtain ⟨-, hk2⟩ := Finset.mem_Ico.mp hk
    rw [mod_two_cases _ _ (by omega), if_pos (by omega),
      getd_eq_zero_of_le x _ (by omega), mul_zero, abs_zero]
  have hz3 : ∑ k in Finset.Ico (j + 1 + B) n, |getd h k * getd x ((B + j + n - k) % n)| = 0 := by
    apply Finset.sum_eq_zero
    intro k hk
    obtain ⟨hk1, hk2⟩ := Finset.mem_Ico.mp hk
    rw [mod_two_cases _ _ (by omega), if_neg (by omega),
      getd_eq_zero_of_le x _ (by omega), mul_zero, abs_zero]
  rw [hz1, hz3, zero_add, add_zero]
  apply Finset.sum_le_sum
  intro k hk
  rw [abs_mul]
  calc |getd h k| * |getd x ((B + j + n - k) % n)| ≤ |getd h k| * 1 :=
        mul_le_mul_of_nonneg_left (hx _) (abs_nonneg _)
    _ = |getd h k| := mul_one _

/- Closure of the unit-sample bound under the buffer operations. -/

lemma EntB_replicate (k : Nat) : EntB (List.replicate k 0) := by
  intro i
  rw [getd_replicate, abs_zero]
  norm_num

lemma EntB_append (a b : List ℚ) (ha : EntB a) (hb : EntB b) : EntB (a ++ b) := by
  intro i
  rcases lt_or_ge i a.length with hi | hi
  · rw [getd_append_lt _ _ _ hi]; exact ha i
  · rw [getd_append_ge _ _ _ hi]; exact hb _

lemma EntB_drop (a : List ℚ) (k : Nat) (ha : EntB a) : EntB (a.drop k) := by
  intro i
  rw [getd_drop]
  exact ha _

lemma EntB_take (a : List ℚ) (k : Nat) (ha : EntB a) : EntB (a.take k) := by
  intro i
  rcases lt_or_ge i k with hi | hi
  · rw [getd_take _ _ _ hi]; exact ha i
  · rw [getd_eq_zero_of_le _ _ (by simp; omega), abs_zero]; norm_num

lemma EntB_rollNeg (a : List ℚ) (k : Nat) (ha : EntB a) : EntB (rollNeg a k) :=
  EntB_append _ _ (EntB_drop a k ha) (EntB_take a k ha)

lemma EntB_setLastB (a x : List ℚ) (k : Nat) (ha : EntB a) (hx : EntB x) :
    EntB (setLastB a k x) :=
  EntB_append _ _ (EntB_take a _ ha) hx

lemma EntB_getD_row (rows : List (List ℚ)) (h : ∀ r ∈ rows, EntB r) (k : Nat) :
    EntB (rows.getD k []) := by
  rcases lt_or_ge k rows.length with hk | hk
  · have hmem : rows.getD k [] ∈ rows := by
      rw [List.getD_eq_getElem rows [] hk]
      exact List.getElem_mem hk
    exact h _ hmem
  · rw [List.getD_eq_default rows [] hk]
    intro i
    rw [getd_nil, abs_zero]
    norm_num

/- Sums of the absolute partitioned-filter rows. -/

lemma length_fftPad (n : Nat) (a : List ℚ) : (fftPad n a).length = n := by
  simp only [fftPad, List.length_append, List.length_take, List.length_replicate]
  omega

lemma abs_getd_fftPad_le (n : Nat) (a : List ℚ) (k : Nat) :
    |getd (fftPad n a) k| ≤ |getd a k| := by
  rcases lt_or_ge k n with hk | hk
  · rcases lt_or_ge k (a.take n).length with hk2 | hk2
    · rw [fftPad, getd_append_lt _ _ _ hk2, getd_take _ _ _ hk]
    · rw [fftPad, getd_append_ge _ _ _ hk2, getd_replicate, abs_zero]
      exact abs_nonneg _
  · rw [getd_eq_zero_of_le _ _ (by rw [length_fftPad]; omega), abs_zero]
    exact abs_nonneg _

lemma sum_range_abs_fftPad_le (n m : Nat) (a : List ℚ) :
    ∑ k in Finset.range n, |getd (fftPad m a) k| ≤ refOf a :=
  le_trans (Finset.sum_le_sum (fun k _ => abs_getd_fftPad_le m a k))
    (sum_range_abs_le_refOf a n)

lemma refOf_pad_beginning (a : List ℚ) (d : Nat) : refOf (pad_beginning a d) = refOf a := by
  rw [pad_beginning, refOf_append]
  simp [refOf, List.map_replicate]

lemma tile_le (L : Nat) (hL : 0 < L) : ∀ (P : Nat) (h : List ℚ),
    ∑ m in Finset.range P, refOf ((h.drop (m * L)).take L) ≤ refOf h := by
  intro P
  induction P with
  | zero =>
    intro h
    simp [refOf_nonneg]
  | succ P ih =>
    intro h
    rw [Finset.sum_range_succ']
    simp only [Nat.zero_mul, List.drop_zero]
    have hsum : ∑ m in Finset.range P, refOf ((h.drop ((m + 1) * L)).take L)
        = ∑ m in Finset.range P, refOf (((h.drop L).drop (m * L)).take L) := by
      apply Finset.sum_congr rfl
      intro m _
      rw [List.drop_drop]
      congr 3
      ring
    rw [hsum]
    calc (∑ m in Finset.range P, refOf (((h.drop L).drop (m * L)).take L)) + refOf (h.take L)
        ≤ refOf (h.drop L) + refOf (h.take L) := by
          exact add_le_add_right (ih (h.drop L)) _
      _ = refOf h := by rw [add_comm, ← refOf_append, List.take_append_drop]

/-- The normalization step on a block bounded by the reference returns a block
of unit-bounded samples. -/
lemma norm_block (s' : FIRState) (h : List ℚ) (out : List ℚ)
    (hnorm : s'.normalize = true) (hr : s'.ref = refOf h) (href : 0 < refOf h)
    (hout : ∀ v ∈ out, |v| ≤ refOf h) :
    ∃ l, finishOut s' out = some l ∧ ∀ v ∈ l, |v| ≤ 1 := by
  have hne : ¬ (s'.ref = 0) := by
    rw [hr]
    exact ne_of_gt href
  refine ⟨normalize_output s'.ref out, by simp [finishOut, hnorm, hne], ?_⟩
  intro v hv
  obtain ⟨w, hw, rfl⟩ := List.mem_map.mp hv
  rw [hr, abs_div, abs_of_pos href, div_le_one href]
  exact hout w hw

lemma mem_cconv_drop_bound (n k : Nat) (buf h : List ℚ) (hbuf : EntB buf) :
    ∀ v ∈ (cconv n buf h).drop k, |v| ≤ refOf h := by
  intro v hv
  have hv2 : v ∈ cconv n buf h := List.drop_subset _ _ hv
  obtain ⟨j, -, rfl⟩ := List.mem_map.mp hv2
  exact cconvEntry_le_refOf n buf h j hbuf

lemma getD_row_map_range (f : Nat → List ℚ) (P m : Nat) (h : m < P) :
    ((List.range P).map f).getD m [] = f m := by
  simp [List.getD, List.getElem?_map, List.getElem?_range h]

lemma getD_row_map_range_ge (f : Nat → List ℚ) (P m : Nat) (h : P ≤ m) :
    ((List.range P).map f).getD m [] = [] := by
  apply List.getD_eq_default
  simp [h]

/-- OLS body: from a well-formed initialized state, one call returns a finite
unit-bounded block and preserves the run invariant. -/
lemma C2_ols_body (h : List ℚ) (s1 : FIRState) (x : List ℚ)
    (hB : 0 < s1.B) (href : 0 < refOf h)
    (hmeth : s1.method = .ols) (hst : s1.stored_h = some h) (hr : s1.ref = refOf h)
    (hnorm : s1.normalize = true) (hn : s1.NFFT = some (s1.B + h.length - 1))
    (hflag : s1.flagIRchanged = true ∨ (s1.flagIRchanged = false ∧ s1.H = h))
    (hbuf : s1.OLS_input_buffer.length = s1.B + h.length - 1)
    (hbufE : EntB s1.OLS_input_buffer)
    (hxlen : x.length = s1.B) (hx : EntB x) :
    ∃ r, OLS_body s1 x = some r ∧ (∃ l, r.1 = some l ∧ ∀ v ∈ l, |v| ≤ 1) ∧
      C2Inv h s1.B r.2 := by
  have hh : 0 < h.length := by
    rcases h with - | ⟨a, t⟩
    · norm_num [refOf] at href
    · simp
  have hbufE2 : EntB (setLastB (rollNeg s1.OLS_input_buffer s1.B) s1.B x) :=
    EntB_setLastB _ _ _ (EntB_rollNeg _ _ hbufE) hx
  have hbufLen2 : (setLastB (rollNeg s1.OLS_input_buffer s1.B) s1.B x).length
      = s1.B + h.length - 1 := by
    simp only [setLastB, length_rollNeg, List.length_append, List.length_take, hxlen, hbuf]
    omega
  rcases hflag with hf | ⟨hf, hH⟩
  · simp only [OLS_body, fft_conv, hn, hst, hf]
    refine ⟨_, rfl, ?_, ?_⟩
    · exact norm_block _ h _ hnorm hr href (mem_cconv_drop_bound _ _ _ h hbufE2)
    · exact ⟨rfl, hr, hnorm, rfl, fun _ => Or.inr ⟨rfl, rfl, rfl, hbufLen2, hbufE2⟩,
        fun hcon => absurd (hmeth.symm.trans hcon) (by decide),
        fun hcon => absurd (hmeth.symm.trans hcon) (by decide)⟩
  · simp only [OLS_body, fft_conv, hn, hst, hf, hH]
    refine ⟨_, rfl, ?_, ?_⟩
    · exact norm_block _ h _ hnorm hr href (mem_cconv_drop_bound _ _ _ h hbufE2)
    · exact ⟨rfl, hr, hnorm, rfl, fun _ => Or.inr ⟨rfl, rfl, rfl, hbufLen2, hbufE2⟩,
        fun hcon => absurd (hmeth.symm.trans hcon) (by decide),
        fun hcon => absurd (hmeth.symm.trans hcon) (by decide)⟩

lemma getd_cconv (n : Nat) (x h : List ℚ) (j : Nat) (hj : j < n) :
    getd (cconv n x h) j = cconvEntry n x h j := by
  rw [cconv, getd_map_range _ _ _ hj]

/-- OLA body: from a well-formed initialized state, one call returns a finite
unit-bounded block and preserves the run invariant. -/
lemma C2_ola_body (h : List ℚ) (s1 : FIRState) (x : List ℚ)
    (hB : 0 < s1.B) (href : 0 < refOf h)
    (hmeth : s1.method = .ola) (hst : s1.stored_h = some h) (hr : s1.ref = refOf h)
    (hnorm : s1.normalize = true) (hn : s1.NFFT = some (s1.B + h.length - 1))
    (hflag : s1.flagIRchanged = true ∨ (s1.flagIRchanged = false ∧ s1.H = h))
    (hlyl : s1.len_y_left = s1.B + h.length - 1 - s1.B)
    (hlo_len : s1.left_overs.length = s1.B + h.length - 1)
    (hlo : ∀ j, |getd s1.left_overs j| ≤ Stail h (j + 1))
    (hxlen : x.length = s1.B) (hx : EntB x) :
    ∃ r, OLA_body s1 x = some r ∧ (∃ l, r.1 = some l ∧ ∀ v ∈ l, |v| ≤ 1) ∧
      C2Inv h s1.B r.2 := by
  have hh : 0 < h.length := by
    rcases h with - | ⟨a, t⟩
    · norm_num [refOf] at href
    · simp
  have hll : (zeroLast (rollNeg s1.left_overs s1.B) s1.B).length = s1.B + h.length - 1 := by
    rw [length_zeroLast, length_rollNeg, hlo_len]
  have hout : ∀ v ∈ (List.range s1.B).map
      (fun i => getd (cconv (s1.B + h.length - 1) x h) i + getd s1.left_overs i),
      |v| ≤ refOf h := by
    intro v hv
    obtain ⟨i, hi, rfl⟩ := List.mem_map.mp hv
    have hiB : i < s1.B := List.mem_range.mp hi
    have h1 : |getd (cconv (s1.B + h.length - 1) x h) i|
        ≤ ∑ k in Finset.range (i + 1), |getd h k| := by
      rw [getd_cconv _ _ _ _ (by omega)]
      exact cconvEntry_low _ s1.B x h i hx (le_of_eq hxlen) hiB rfl hh
    have h2 := hlo i
    have h3 := abs_add (getd (cconv (s1.B + h.length - 1) x h) i) (getd s1.left_overs i)
    have h4 := head_plus_Stail h i
    linarith
  have hcarry : ∀ j,
      |getd ((List.range (zeroLast (rollNeg s1.left_overs s1.B) s1.B).length).map
        (fun i => if i < s1.len_y_left then
          getd (zeroLast (rollNeg s1.left_overs s1.B) s1.B) i
            + getd (cconv (s1.B + h.length - 1) x h) (s1.B + i)
          else getd (zeroLast (rollNeg s1.left_overs s1.B) s1.B) i)) j|
      ≤ Stail h (j + 1) := by
    intro j
    simp only [hlyl]
    rcases lt_or_ge j (s1.B + h.length - 1) with hj | hj
    · rw [hll, getd_map_range _ _ _ hj,
        getd_carry s1.left_overs s1.B (s1.B + h.length - 1) j hlo_len (by omega)]
      by_cases hcase : j < s1.B + h.length - 1 - s1.B
      · rw [if_pos hcase, if_pos hcase]
        have hy : |getd (cconv (s1.B + h.length - 1) x h) (s1.B + j)|
            ≤ ∑ k in Finset.Ico (j + 1) (j + 1 + s1.B), |getd h k| := by
          rw [getd_cconv _ _ _ _ (by omega)]
          exact cconvEntry_tail _ s1.B x h j hx (le_of_eq hxlen) hcase rfl hB
        have hl2 := hlo (s1.B + j)
        rw [show s1.B + j + 1 = j + 1 + s1.B from by omega] at hl2
        have h3 := abs_add (getd s1.left_overs (s1.B + j))
          (getd (cconv (s1.B + h.length - 1) x h) (s1.B + j))
        have h4 := Stail_split h (j + 1) s1.B
        linarith
      · rw [if_neg hcase, if_neg hcase, abs_zero]
        exact Stail_nonneg h (j + 1)
    · rw [getd_eq_zero_of_le _ _ (by rw [List.length_map, List.length_range, hll]; omega),
        abs_zero]
      exact Stail_nonneg h (j + 1)
  have hclen :
      ((List.range (zeroLast (rollNeg s1.left_overs s1.B) s1.B).length).map
        (fun i => if i < s1.len_y_left then
          getd (zeroLast (rollNeg s1.left_overs s1.B) s1.B) i
            + getd (cconv (s1.B + h.length - 1) x h) (s1.B + i)
          else getd (zeroLast (rollNeg s1.left_overs s1.B) s1.B) i)).length
      = s1.B + h.length - 1 := by
    rw [List.length_map, List.length_range, hll]
  rcases hflag with hf | ⟨hf, hH⟩
  · simp only [OLA_body, fft_conv, hn, hst, hf]
    refine ⟨_, rfl, ?_, ?_⟩
    · exact norm_block _ h _ hnorm hr href hout
    · exact ⟨rfl, hr, hnorm, rfl,
        fun hcon => absurd (hmeth.symm.trans hcon) (by decide),
        fun _ => Or.inr ⟨rfl, rfl, rfl, hlyl, hclen, hcarry⟩,
        fun hcon => absurd (hmeth.symm.trans hcon) (by decide)⟩
  · simp only [OLA_body, fft_conv, hn, hst, hf, hH]
    refine ⟨_, rfl, ?_, ?_⟩
    · exact norm_block _ h _ hnorm hr href hout
    · exact ⟨hst, hr, hnorm, rfl,
        fun hcon => absurd (hmeth.symm.trans hcon) (by decide),
        fun _ => Or.inr ⟨hn, hf, hH, hlyl, hclen, hcarry⟩,
        fun hcon => absurd (hmeth.symm.trans hcon) (by decide)⟩

/-- UPOLS stream phase: from a well-formed post-setup state, one call returns
a finite unit-bounded block and preserves the run invariant. -/
lemma C2_upols_stream (h : List ℚ) (L : Nat) (s1 : FIRState) (x : List ℚ)
    (href : 0 < refOf h) (hLpos : 0 < L)
    (hmeth : s1.method = .upols) (hst : s1.stored_h = some h) (hr : s1.ref = refOf h)
    (hnorm : s1.normalize = true) (hpart : s1.partition = some L)
    (hflag : s1.flagIRchanged = false)
    (hHrows : s1.Hrows = (List.range s1.P).map (mkHrow (s1.NFFT.getD 0) s1.B L h))
    (hbufE : EntB s1.input_buffer) (hFDL : ∀ r ∈ s1.FDL, EntB r)
    (hxlen : x.length = s1.B) (hx : EntB x) :
    (∃ l, (UPOLS_stream s1 x).1 = some l ∧ ∀ v ∈ l, |v| ≤ 1) ∧
      C2Inv h s1.B (UPOLS_stream s1 x).2 := by
  have hbufE2 : EntB (setLastB (rollNeg s1.input_buffer s1.B) s1.B x) :=
    EntB_setLastB _ _ _ (EntB_rollNeg _ _ hbufE) hx
  have hFDL2 : ∀ r ∈ (setLastB (rollNeg s1.input_buffer s1.B) s1.B x)
      :: (rollPos1 s1.FDL).tail, EntB r := by
    intro r hr2
    rcases List.mem_cons.mp hr2 with h1 | h1
    · subst h1
      exact hbufE2
    · have h2 : r ∈ rollPos1 s1.FDL := List.mem_of_mem_tail h1
      rcases List.mem_append.mp h2 with h3 | h3
      · exact hFDL r (List.drop_subset _ _ h3)
      · exact hFDL r (List.take_subset _ _ h3)
  have hout : ∀ v ∈ (List.range (s1.NFFT.getD 0)).map (fun j =>
      ((List.range s1.P).map (fun m =>
        cconvEntry (s1.NFFT.getD 0)
          (((setLastB (rollNeg s1.input_buffer s1.B) s1.B x)
            :: (rollPos1 s1.FDL).tail).getD (s1.nm.getD m 0) [])
          (s1.Hrows.getD m []) j)).sum),
      |v| ≤ refOf h := by
    intro v hv
    obtain ⟨j, -, rfl⟩ := List.mem_map.mp hv
    rw [list_sum_range]
    refine le_trans (Finset.abs_sum_le_sum_abs _ _) ?_
    have hTermBound : ∀ m ∈ Finset.range s1.P,
        |cconvEntry (s1.NFFT.getD 0)
          (((setLastB (rollNeg s1.input_buffer s1.B) s1.B x)
            :: (rollPos1 s1.FDL).tail).getD (s1.nm.getD m 0) [])
          (s1.Hrows.getD m []) j|
        ≤ refOf ((h.drop (m * L)).take L) := by
      intro m hm
      have hmP : m < s1.P := Finset.mem_range.mp hm
      have hrow : s1.Hrows.getD m [] = mkHrow (s1.NFFT.getD 0) s1.B L h m := by
        rw [hHrows, getD_row_map_range _ _ _ hmP]
      refine le_trans (cconvEntry_abs_le _ _ _ _
        (EntB_getD_row _ hFDL2 (s1.nm.getD m 0))) ?_
      rw [hrow, mkHrow]
      refine le_trans (sum_range_abs_fftPad_le _ _ _) ?_
      rw [refOf_pad_beginning]
    refine le_trans (Finset.sum_le_sum hTermBound) ?_
    exact tile_le L hLpos s1.P h
  constructor
  · simp only [UPOLS_stream]
    exact norm_block _ h _ hnorm hr href (fun v hv => hout v (List.drop_subset _ _ hv))
  · simp only [UPOLS_stream]
    exact ⟨hst, hr, hnorm, rfl,
      fun hcon => absurd (hmeth.symm.trans hcon) (by decide),
      fun hcon => absurd (hmeth.symm.trans hcon) (by decide),
      fun _ => ⟨L, hpart, Or.inr ⟨hflag, hLpos, hHrows, hbufE2, hFDL2⟩⟩⟩

lemma length_pos_of_refOf_pos (h : List ℚ) (href : 0 < refOf h) : 0 < h.length := by
  rcases h with - | ⟨a, t⟩
  · norm_num [refOf] at href
  · simp

/-- One process call with no new impulse response either raises or returns a
finite unit-bounded block, preserving the run invariant. -/
lemma C2_step (cost : Nat → Nat → ℚ) (h : List ℚ) (B : Nat) (s : FIRState) (x : List ℚ)
    (hB : 0 < B) (href : 0 < refOf h) (hs : C2Inv h B s)
    (hxlen : x.length = B) (hx : EntB x) :
    process cost s x none = none ∨
    ∃ r, process cost s x none = some r ∧ (∃ l, r.1 = some l ∧ ∀ v ∈ l, |v| ≤ 1) ∧
      C2Inv h B r.2 := by
  obtain ⟨hst, hr, hnorm, hBs, hOls, hOla, hUp⟩ := hs
  subst hBs
  have hh : 0 < h.length := length_pos_of_refOf_pos h href
  rw [process_none]
  cases hmeth : s.method with
  | ols =>
    right
    rcases hOls hmeth with ⟨hn, hf⟩ | ⟨hn, hf, hH, hblen, hbE⟩
    · have heq : OLS_step s x = OLS_body
          { s with NFFT := some (s.B + h.length - 1),
                   OLS_input_buffer := List.replicate (s.B + h.length - 1) 0 } x := by
        simp only [OLS_step, hst, hn]
      rw [heq]
      exact C2_ols_body h _ x hB href hmeth hst hr hnorm rfl (Or.inl hf)
        (by simp) (EntB_replicate _) hxlen hx
    · have heq : OLS_step s x = OLS_body s x := by
        simp only [OLS_step, hst, hn]
      rw [heq]
      exact C2_ols_body h s x hB href hmeth hst hr hnorm hn (Or.inr ⟨hf, hH⟩)
        hblen hbE hxlen hx
  | ola =>
    right
    rcases hOla hmeth with ⟨hn, hf⟩ | ⟨hn, hf, hH, hlyl, hllen, hlbnd⟩
    · have heq : OLA_step s x = OLA_body
          { s with NFFT := some (s.B + h.length - 1),
                   left_overs := List.replicate (s.B + h.length - 1) 0,
                   len_y_left := s.B + h.length - 1 - s.B } x := by
        simp only [OLA_step, hst, hn]
      rw [heq]
      refine C2_ola_body h _ x hB href hmeth hst hr hnorm rfl (Or.inl hf) rfl
        (by simp) ?_ hxlen hx
      intro j
      rw [getd_replicate, abs_zero]
      exact Stail_nonneg h (j + 1)
    · have heq : OLA_step s x = OLA_body s x := by
        simp only [OLA_step, hst, hn]
      rw [heq]
      exact C2_ola_body h s x hB href hmeth hst hr hnorm hn (Or.inr ⟨hf, hH⟩)
        hlyl hllen hlbnd hxlen hx
  | upols =>
    obtain ⟨L, hpart, harm⟩ := hUp hmeth
    rcases harm with hf | ⟨hf, hLpos, hHrows, hbufE, hFDL⟩
    · by_cases hL0 : L = 0
      · left
        subst hL0
        simp [UPOLS_step, UPOLS_setup, hst, hf, hpart]
      · right
        have hLpos : 0 < L := by omega
        have hPpos : 1 ≤ (h.length + L - 1) / L := by
          rw [Nat.le_div_iff_mul_le hLpos]
          omega
        have hPne : ¬ ((h.length + L - 1) / L = 0) := by omega
        have heq : UPOLS_step cost s x = some (UPOLS_stream
            { s with partition := some L,
                     NFFT := some (s.B + L + (s.B - Nat.gcd L s.B)),
                     P := (h.length + L - 1) / L,
                     nm := (List.range ((h.length + L - 1) / L)).map (fun m => (m * L) / s.B),
                     Hrows := (List.range ((h.length + L - 1) / L)).map
                       (mkHrow (s.B + L + (s.B - Nat.gcd L s.B)) s.B L h),
                     input_buffer := List.replicate (s.B + L + (s.B - Nat.gcd L s.B)) 0,
                     FDL := List.replicate
                       ((((List.range ((h.length + L - 1) / L)).map
                         (fun m => (m * L) / s.B)).foldr max 0) + 1)
                       (List.replicate (s.B + L + (s.B - Nat.gcd L s.B)) 0),
                     flagIRchanged := false } x) := by
          simp only [UPOLS_step, hst, hf, UPOLS_setup, hpart, if_neg hL0, if_neg hPne, if_true]
        rw [heq]
        obtain ⟨hblock, hinv2⟩ := C2_upols_stream h L
          { s with partition := some L,
                   NFFT := some (s.B + L + (s.B - Nat.gcd L s.B)),
                   P := (h.length + L - 1) / L,
                   nm := (List.range ((h.length + L - 1) / L)).map (fun m => (m * L) / s.B),
                   Hrows := (List.range ((h.length + L - 1) / L)).map
                     (mkHrow (s.B + L + (s.B - Nat.gcd L s.B)) s.B L h),
                   input_buffer := List.replicate (s.B + L + (s.B - Nat.gcd L s.B)) 0,
                   FDL := List.replicate
                     ((((List.range ((h.length + L - 1) / L)).map
                       (fun m => (m * L) / s.B)).foldr max 0) + 1)
                     (List.replicate (s.B + L + (s.B - Nat.gcd L s.B)) 0),
                   flagIRchanged := false } x href hLpos hmeth hst hr hnorm rfl
          rfl rfl (EntB_replicate _)
          (fun r hr2 => by rw [List.eq_of_mem_replicate hr2]; exact EntB_replicate _)
          hxlen hx
        exact ⟨_, rfl, hblock, hinv2⟩
    · right
      have heq : UPOLS_step cost s x = some (UPOLS_stream s x) := by
        simp only [UPOLS_step, hst, hf, Bool.false_eq_true, if_false]
      rw [heq]
      obtain ⟨hblock, hinv2⟩ := C2_upols_stream h L s x href hLpos hmeth hst hr hnorm hpart
        hf hHrows hbufE hFDL hxlen hx
      exact ⟨_, rfl, hblock, hinv2⟩

/-- A freshly constructed engine with an impulse response satisfies the run
invariant. -/
lemma C2_init (cost : Nat → Nat → ℚ) (method : FIRMethod) (B : Nat) (h : List ℚ)
    (partition : Option Nat) (s0 : FIRState)
    (hinit : FIRfilter_init cost method B (some h) partition true = some s0) :
    C2Inv h B s0 := by
  cases method with
  | ols =>
    simp only [FIRfilter_init] at hinit
    cases hinit
    refine ⟨rfl, rfl, rfl, rfl, fun _ => Or.inl ⟨rfl, rfl⟩, fun hcon => ?_, fun hcon => ?_⟩ <;>
      simp at hcon
  | ola =>
    simp only [FIRfilter_init] at hinit
    cases hinit
    refine ⟨rfl, rfl, rfl, rfl, fun hcon => ?_, fun _ => Or.inl ⟨rfl, rfl⟩, fun hcon => ?_⟩ <;>
      simp at hcon
  | upols =>
    cases partition with
    | none =>
      simp only [FIRfilter_init] at hinit
      rcases hopt : optimize_UPOLS_parameters cost h.length B with - | p
      · rw [hopt] at hinit
        simp at hinit
      · rw [hopt] at hinit
        injection hinit with hinit
        subst hinit
        refine ⟨rfl, rfl, rfl, rfl, fun hcon => ?_, fun hcon => ?_,
          fun _ => ⟨p.1, rfl, Or.inl rfl⟩⟩ <;>
          simp at hcon
    | some L =>
      simp only [FIRfilter_init] at hinit
      cases hinit
      refine ⟨rfl, rfl, rfl, rfl, fun hcon => ?_, fun hcon => ?_,
        fun _ => ⟨L, rfl, Or.inl rfl⟩⟩ <;>
        simp at hcon

lemma C2_run (cost : Nat → Nat → ℚ) (h : List ℚ) (B : Nat)
    (hB : 0 < B) (href : 0 < refOf h) :
    ∀ (xs : List (List ℚ)) (s : FIRState), C2Inv h B s →
      (∀ x ∈ xs, x.length = B ∧ ∀ v ∈ x, |v| ≤ 1) →
      ∀ y ∈ (runProcess cost s xs).1, ∃ l, y = some l ∧ ∀ v ∈ l, |v| ≤ 1 := by
  intro xs
  induction xs with
  | nil =>
    intro s hinv hxs y hy
    simp [runProcess] at hy
  | cons x rest ih =>
    intro s hinv hxs y hy
    obtain ⟨hxl, hxb⟩ := hxs x (List.mem_cons_self _ _)
    rcases C2_step cost h B s x hB href hinv hxl (EntB_of_mem x hxb) with
      hnone | ⟨r, hsome, ⟨l, hl1, hl2⟩, hinv2⟩
    · simp [runProcess, hnone] at hy
    · obtain ⟨y0, s2⟩ := r
      simp only [runProcess, hsome] at hy
      rcases List.mem_cons.mp hy with h1 | h1
      · subst h1
        exact ⟨l, hl1, hl2⟩
      · exact ih s2 hinv2 (fun x2 hx2 => hxs x2 (List.mem_cons_of_mem _ hx2)) y h1

/-- Claim C2: with normalization on, an engine built over a stored impulse
response with positive reference, fed any stream of length-B blocks whose
samples lie in [-1, 1], returns only finite output blocks all of whose samples
lie in [-1, 1]. -/
theorem C2_normalization_bound (cost : Nat → Nat → ℚ) (method : FIRMethod) (B : Nat)
    (h : List ℚ) (partition : Option Nat) (s0 : FIRState) (xs : List (List ℚ))
    (hB : 0 < B) (href : 0 < refOf h)
    (hinit : FIRfilter_init cost method B (some h) partition true = some s0)
    (hxs : ∀ x ∈ xs, x.length = B ∧ ∀ v ∈ x, |v| ≤ 1) :
    ∀ y ∈ (runProcess cost s0 xs).1, ∃ l, y = some l ∧ ∀ v ∈ l, |v| ≤ 1 :=
  C2_run cost h B hB href xs s0 (C2_init cost method B h partition s0 hinit) hxs

/-- Claim C2 witness: a fresh normalizing OLS engine over the scenario filter
fed two unit-bounded blocks. -/
theorem C2_normalization_bound_witness :
    ∃ l, (runProcess cost0 olsFreshNormW [[1, 0, 1, 0], [1, 1, 1, 1]]).1.getD 0 none = some l ∧
      ∀ v ∈ l, |v| ≤ 1 :=
  C2_normalization_bound cost0 .ols 4 hC1 none olsFreshNormW [[1, 0, 1, 0], [1, 1, 1, 1]]
    (by norm_num) (by norm_num [refOf, hC1]) rfl (by with_unfolding_all decide)
    ((runProcess cost0 olsFreshNormW [[1, 0, 1, 0], [1, 1, 1, 1]]).1.getD 0 none)
    (by with_unfolding_all decide)

end PyFIR
